import Mathlib

/-!
# puppy: dependency aggregation engine (`src/cli/service.go`, `src/cli/filecache.go`)

A shallow embedding of the reduction, deduplication, chunking, pagination and
cache-lookup code, followed by the properties established about it.

Modelling conventions.

* A `float64` count is the rational it denotes (`ℚ`); infinities and NaN are
  outside the model. `reduceRows` and `toSortedBuckets` take the counts as exact
  numbers; `reduceRowsWith float64.add` is `reduceRows` with the rounding
  addition of `float64`.
* Go strings are Lean `String`s; Go's bytewise `<` on UTF-8 strings is the
  lexicographic order on code points, which is Lean's `<` on `String`.
* A Go `map` is an association list with pairwise distinct keys, in the order
  in which the keys were first inserted; `range` over the map walks that list.
  (Go leaves the iteration order unspecified; `sortSlice_eq_of_perm` shows the
  sorted outputs below do not depend on it.)
* `sort.Slice` is modelled by insertion sort; for a comparator that is a strict
  total order on the elements every sorting algorithm gives the same result
  (`sortSlice_eq_of_perm`).
* The telemetry backend, the file system and the clock are parameters.
-/

namespace Puppy

/-! ## Data model -/

/-- Type `DepRow` of `service.go`: one client-side call shape with its count. -/
structure DepRow where
  OutgoingResource : String
  PeerService : String
  Count : ℚ
deriving DecidableEq

/-- Type `Bucket` of `service.go`: participation count of a service. -/
structure Bucket where
  Name : String
  Count : ℚ
deriving DecidableEq

/-- The local type `key` declared inside `reduceRows`. -/
structure reduceRows.key where
  r : String
  p : String
deriving DecidableEq

/-! ## Go maps and `sort.Slice` -/

/-- The statement `m[k] += c` on a map with numeric values: an absent key reads
as the zero value and is inserted. -/
def mapAdd {κ : Type} [DecidableEq κ] : List (κ × ℚ) → κ → ℚ → List (κ × ℚ)
  | [], k, c => [(k, 0 + c)]
  | (k0, v) :: rest, k, c =>
    if k0 = k then (k0, v + c) :: rest else (k0, v) :: mapAdd rest k c

/-- The call `sort.Slice(out, less)`. -/
def sortSlice {α : Type} (less : α → α → Bool) (out : List α) : List α :=
  out.insertionSort (fun a b => less b a = false)

/-! ## `reduceRows` -/

/-- The comparator passed to `sort.Slice` in `reduceRows`. -/
def reduceRows.less (a b : DepRow) : Bool :=
  if a.Count = b.Count then
    if a.PeerService = b.PeerService then
      decide (a.OutgoingResource < b.OutgoingResource)
    else
      decide (a.PeerService < b.PeerService)
  else
    decide (a.Count > b.Count)

/-- The first loop of `reduceRows`: the map from key to summed count. -/
def reduceRows.group (rows : List DepRow) : List (reduceRows.key × ℚ) :=
  rows.foldl
    (fun m row => mapAdd m ⟨row.OutgoingResource, row.PeerService⟩ row.Count) []

/-- Function `reduceRows` of `service.go`. -/
def reduceRows (rows : List DepRow) : List DepRow :=
  let m := reduceRows.group rows
  let out := m.map (fun e => DepRow.mk e.1.r e.1.p e.2)
  sortSlice reduceRows.less out

/-! ## `toSortedBuckets` -/

/-- Go's `unicode.IsSpace`: the Latin-1 spaces and the code points with the
Unicode White_Space property. -/
def isSpace (c : Char) : Bool :=
  let n := c.toNat
  (0x09 ≤ n && n ≤ 0x0D) || n == 0x20 || n == 0x85 || n == 0xA0 ||
  n == 0x1680 || (0x2000 ≤ n && n ≤ 0x200A) || n == 0x2028 || n == 0x2029 ||
  n == 0x202F || n == 0x205F || n == 0x3000

/-- Go's `strings.TrimSpace`: the string without its leading and trailing white
space. -/
def TrimSpace (s : String) : String :=
  String.mk (((s.toList.dropWhile isSpace).reverse.dropWhile isSpace).reverse)

/-- The comparator passed to `sort.Slice` in `toSortedBuckets`. -/
def toSortedBuckets.less (a b : Bucket) : Bool :=
  if a.Count = b.Count then
    decide (a.Name < b.Name)
  else
    decide (a.Count > b.Count)

/-- Function `toSortedBuckets` of `service.go`; the argument is the map, as the
list of its entries in iteration order. -/
def toSortedBuckets (m : List (String × ℚ)) : List Bucket :=
  let out := m.filterMap
    (fun e => if TrimSpace e.1 = "" then none else some (Bucket.mk e.1 e.2))
  sortSlice toSortedBuckets.less out

/-! ## `uniq` -/

/-- The loop of `uniq`: `seen` is the set of strings met so far, `out` the
output slice. -/
def uniq.loop : List String → List String → List String → List String
  | _, out, [] => out
  | seen, out, s :: ss =>
    if s ∈ seen then uniq.loop seen out ss
    else uniq.loop (s :: seen) (out ++ [s]) ss

/-- Function `uniq` of `service.go`. -/
def uniq (ss : List String) : List String :=
  uniq.loop [] [] ss

/-! ## `fileCache.Get` -/

/-- What one call of `fileCache.Get` observes of its surroundings: the key
function of the cache, the file system, the clock and the decoder of the
caller's output type `V`. Times and durations are integers (nanoseconds); the
saturation of `time.Duration` is outside the model. -/
structure fileCache.Env (B V : Type) where
  /-- Method `fileCache.key`: the path of the entry of `(op, site, body)`. -/
  key : String → String → B → String
  /-- The modification time given by `os.Stat`, or its error. -/
  stat : String → Except String Int
  /-- The clock read by `time.Since`. -/
  now : Int
  /-- The content given by `os.ReadFile`, or its error. -/
  readFile : String → Except String String
  /-- The value decoded by `json.Unmarshal`, or its error. -/
  unmarshal : String → Except String V

/-- The two results of `fileCache.Get` and the value stored through `out`. -/
structure fileCache.Result (V : Type) where
  hit : Bool
  err : Option String
  out : Option V

/-- Method `fileCache.Get` of `filecache.go`. -/
def fileCache.Get {B V : Type} (c : fileCache.Env B V) (op site : String) (body : B)
    (ttl : Int) : fileCache.Result V :=
  let p := c.key op site body
  match c.stat p with
  | .error _ => ⟨false, none, none⟩
  | .ok modTime =>
    if c.now - modTime > ttl then ⟨false, none, none⟩
    else
      match c.readFile p with
      | .error e => ⟨false, some e, none⟩
      | .ok b =>
        match c.unmarshal b with
        | .error e => ⟨true, some e, none⟩
        | .ok v => ⟨true, none, some v⟩

/-! ## `listTraceIDs` -/

/-- What `listTraceIDs` reads of a `SpansListResponse`: the trace ID of each
span of `GetData()` (`""` when unset) and `GetMeta().GetPage().GetAfter()`
(`""` when unset). -/
structure SpansListResponse where
  Data : List String
  After : String
deriving DecidableEq

/-- The collaborators of `listTraceIDs` over a world state `σ` (cache files,
backend, clock). A request is identified by its `Page.Cursor` field, the only
field that changes between iterations. -/
structure ListSpansEnv (σ : Type) where
  /-- The call `s.cache.Get("v2.ListSpans", ...)`: the decoded response when it
  reports a hit. -/
  cacheGet : σ → Option String → Option SpansListResponse × σ
  /-- The call `s.spansApi.ListSpans` followed by `throttleFromHeaders`. -/
  ListSpans : σ → Option String → Except String SpansListResponse × σ
  /-- The call `s.cache.Set("v2.ListSpans", ...)`. -/
  cacheSet : σ → Option String → SpansListResponse → σ

/-- An execution of `listTraceIDs` observed for a bounded number of loop
iterations. `result` is `none` while the loop is still running; `requests` are
the page requests made, one per iteration, and `pages` the responses obtained,
both in order. -/
structure ListRun (σ : Type) where
  result : Option (Except String (List String))
  requests : List (Option String)
  pages : List SpansListResponse
  world : σ

/-- Lines 252-261 of `listTraceIDs`: the response of one page request, from the
cache or else from the backend. -/
def listTraceIDs.fetch {σ : Type} (env : ListSpansEnv σ) (w : σ) (req : Option String) :
    Except String SpansListResponse × σ :=
  match env.cacheGet w req with
  | (some resp, w1) => (.ok resp, w1)
  | (none, w1) =>
    match env.ListSpans w1 req with
    | (.error err, w2) => (.error ("ListSpans: " ++ err), w2)
    | (.ok apiResp, w2) => (.ok apiResp, env.cacheSet w2 req apiResp)

/-- Lines 263-271 of `listTraceIDs`: the loop over the spans of one page. The
flag is `true` when the loop leaves through `return uniq(traceIDs), nil`. -/
def listTraceIDs.scan (maxTraces : Int) : List String → List String → List String × Bool
  | traceIDs, [] => (traceIDs, false)
  | traceIDs, tid :: rest =>
    if tid ≠ "" then
      if maxTraces > 0 ∧ ((traceIDs ++ [tid]).length : Int) ≥ maxTraces then
        (traceIDs ++ [tid], true)
      else listTraceIDs.scan maxTraces (traceIDs ++ [tid]) rest
    else listTraceIDs.scan maxTraces traceIDs rest

/-- The `for` loop of `listTraceIDs`, run for at most `fuel` iterations.
`reqCursor` is `req.Data.Attributes.Page.Cursor`. The loop has no `break`: the
statement that would leave it on an empty `after` is commented out in the
source. -/
def listTraceIDs.loop {σ : Type} (env : ListSpansEnv σ) (maxTraces : Int) :
    Nat → σ → List String → String → Option String →
    List (Option String) → List SpansListResponse → ListRun σ
  | 0, w, _, _, _, reqs, pages => ⟨none, reqs, pages, w⟩
  | fuel + 1, w, traceIDs, cursor, reqCursor, reqs, pages =>
    let reqCursor := if cursor ≠ "" then some cursor else reqCursor
    match listTraceIDs.fetch env w reqCursor with
    | (.error err, w1) => ⟨some (.error err), reqs ++ [reqCursor], pages, w1⟩
    | (.ok resp, w1) =>
      match listTraceIDs.scan maxTraces traceIDs resp.Data with
      | (traceIDs1, true) =>
        ⟨some (.ok (uniq traceIDs1)), reqs ++ [reqCursor], pages ++ [resp], w1⟩
      | (traceIDs1, false) =>
        listTraceIDs.loop env maxTraces fuel w1 traceIDs1 resp.After reqCursor
          (reqs ++ [reqCursor]) (pages ++ [resp])

/-- Method `listTraceIDs` of `service.go`, observed for `fuel` iterations. -/
def listTraceIDs {σ : Type} (env : ListSpansEnv σ) (w : σ) (maxTraces : Int) (fuel : Nat) :
    ListRun σ :=
  listTraceIDs.loop env maxTraces fuel w [] "" none [] []

/-! ## `aggregateClientPeersByTrace` -/

/-- Function `parseAggregatePairs` of `service.go` on a decoded response: one
`(a, b, count)` triple per item of `data`. -/
def parseAggregatePairs (raw : List DepRow) : List DepRow :=
  reduceRows (raw.filter (fun row => ¬ (row.OutgoingResource = "" ∧ row.PeerService = "")))

/-- The collaborators of `aggregateClientPeersByTrace` over a world state `σ`.
A request is identified by the trace IDs of its query, the only part that
changes between iterations. -/
structure AggregateSpansEnv (σ : Type) where
  /-- The call `s.cache.Get("v2.AggregateSpansClient", ...)`: the decoded
  response when it reports a hit. -/
  cacheGet : σ → List String → Option (List DepRow) × σ
  /-- The call `s.spansApi.AggregateSpans` followed by `throttleFromHeaders`. -/
  AggregateSpans : σ → List String → Except String (List DepRow) × σ
  /-- The call `s.cache.Set("v2.AggregateSpansClient", ...)`. -/
  cacheSet : σ → List String → List DepRow → σ

/-- An execution of `aggregateClientPeersByTrace`: its result and the trace IDs
of each chunk query, in order. -/
structure AggregateRun (σ : Type) where
  result : Except String (List DepRow)
  queries : List (List String)
  world : σ

/-- The constant `chunk` of `aggregateClientPeersByTrace`. -/
def aggregateClientPeersByTrace.chunk : Nat := 80

/-- The `for` loop of `aggregateClientPeersByTrace`. -/
def aggregateClientPeersByTrace.loop {σ : Type} (env : AggregateSpansEnv σ)
    (traceIDs : List String) (i : Nat) (w : σ) (all : List DepRow)
    (queries : List (List String)) : AggregateRun σ :=
  if i < traceIDs.length then
    let «end» := i + aggregateClientPeersByTrace.chunk
    let «end» := if «end» > traceIDs.length then traceIDs.length else «end»
    let ids := (traceIDs.take «end»).drop i
    match env.cacheGet w ids with
    | (some raw, w1) =>
      aggregateClientPeersByTrace.loop env traceIDs (i + aggregateClientPeersByTrace.chunk) w1
        (all ++ parseAggregatePairs raw) (queries ++ [ids])
    | (none, w1) =>
      match env.AggregateSpans w1 ids with
      | (.error err, w2) => ⟨.error ("AggregateSpans(client): " ++ err), queries ++ [ids], w2⟩
      | (.ok raw, w2) =>
        aggregateClientPeersByTrace.loop env traceIDs (i + aggregateClientPeersByTrace.chunk)
          (env.cacheSet w2 ids raw) (all ++ parseAggregatePairs raw) (queries ++ [ids])
  else ⟨.ok (reduceRows all), queries, w⟩
termination_by traceIDs.length - i
decreasing_by all_goals (simp only [aggregateClientPeersByTrace.chunk]; omega)

/-- Method `aggregateClientPeersByTrace` of `service.go`. -/
def aggregateClientPeersByTrace {σ : Type} (env : AggregateSpansEnv σ) (w : σ)
    (traceIDs : List String) : AggregateRun σ :=
  if traceIDs.length = 0 then ⟨.ok [], [], w⟩
  else aggregateClientPeersByTrace.loop env traceIDs 0 w [] []

/-! ## `float64` addition and `reduceRows` over it

`reduceRows` above adds counts exactly. The definitions below follow the same
source lines with the addition of counts as a parameter, and give the addition
of `float64`: the exact sum rounded to the nearest value of the binary64 format,
ties to the even significand. A `float64` value is the rational it denotes;
sums beyond the largest finite value (an infinity in Go) are outside the
model. -/

/-- Rounding of a rational to the nearest integer, ties to the even one. -/
def float64.roundEven (q : ℚ) : ℤ :=
  if q - ⌊q⌋ < 1 / 2 then ⌊q⌋
  else if 1 / 2 < q - ⌊q⌋ then ⌊q⌋ + 1
  else if ⌊q⌋ % 2 = 0 then ⌊q⌋ else ⌊q⌋ + 1

/-- The spacing of the binary64 values around `x`: `2 ^ (e - 52)`, where
`2 ^ e ≤ |x| < 2 ^ (e + 1)` and `e` is at least `-1022` (below that the values
are subnormal, with the spacing `2 ^ (-1074)`). -/
def float64.ulp (x : ℚ) : ℚ :=
  (2 : ℚ) ^ (max (Int.log 2 |x|) (-1022) - 52)

/-- Rounding to the binary64 format: the nearest multiple of the spacing, ties
to the even multiple. -/
def float64.round (x : ℚ) : ℚ :=
  (float64.roundEven (x / float64.ulp x) : ℚ) * float64.ulp x

/-- The operator `+` of Go on `float64` values. -/
def float64.add (a b : ℚ) : ℚ :=
  float64.round (a + b)

/-- The statement `m[k] += c` with the addition `add` of the value type. -/
def mapAddWith {κ : Type} [DecidableEq κ] (add : ℚ → ℚ → ℚ) :
    List (κ × ℚ) → κ → ℚ → List (κ × ℚ)
  | [], k, c => [(k, add 0 c)]
  | (k0, v) :: rest, k, c =>
    if k0 = k then (k0, add v c) :: rest else (k0, v) :: mapAddWith add rest k c

/-- The first loop of `reduceRows`, with the addition `add` of counts. -/
def reduceRows.groupWith (add : ℚ → ℚ → ℚ) (rows : List DepRow) :
    List (reduceRows.key × ℚ) :=
  rows.foldl
    (fun m row => mapAddWith add m ⟨row.OutgoingResource, row.PeerService⟩ row.Count) []

/-- Function `reduceRows` of `service.go`, with the addition `add` of counts:
`reduceRowsWith float64.add` is the function on `float64` counts. -/
def reduceRowsWith (add : ℚ → ℚ → ℚ) (rows : List DepRow) : List DepRow :=
  let m := reduceRows.groupWith add rows
  let out := m.map (fun e => DepRow.mk e.1.r e.1.p e.2)
  sortSlice reduceRows.less out

/-! ## Notions used to state the properties -/

/-- The expression `m[k]` on a map with numeric values: the zero value for an
absent key. -/
def mapGet {κ : Type} [DecidableEq κ] : List (κ × ℚ) → κ → ℚ
  | [], _ => 0
  | (k0, v) :: rest, k => if k0 = k then v else mapGet rest k

/-- The pair `(OutgoingResource, PeerService)` of a row. -/
def rowPair (row : DepRow) : String × String :=
  (row.OutgoingResource, row.PeerService)

/-- The sum of the counts of the rows of `xs` that have the pair `k`. -/
def pairTotal (xs : List DepRow) (k : String × String) : ℚ :=
  ((xs.filter (fun x => rowPair x = k)).map DepRow.Count).sum

/-- The sort key of a row: count (reversed), then peer service, then outgoing
resource, compared lexicographically. -/
def reduceRows.rank (row : DepRow) : ℚᵒᵈ ×ₗ (String ×ₗ String) :=
  toLex (OrderDual.toDual row.Count, toLex (row.PeerService, row.OutgoingResource))

/-- The sort key of a bucket: count (reversed), then name, compared
lexicographically. -/
def toSortedBuckets.rank (b : Bucket) : ℚᵒᵈ ×ₗ String :=
  toLex (OrderDual.toDual b.Count, b.Name)

/-- A string that is empty or consists of white space only. -/
def blank (s : String) : Prop :=
  ∀ c ∈ s.toList, isSpace c = true

/-- The non-empty trace IDs carried by a sequence of pages, in order. -/
def nonEmptyIDs (pages : List SpansListResponse) : List String :=
  (pages.map (fun p => p.Data.filter (fun tid => tid ≠ ""))).flatten

/-- The slice expression `traceIDs[80*i : min(80*i+80, n)]`, `n` the length of
`traceIDs`. -/
def chunkAt (traceIDs : List String) (i : Nat) : List String :=
  (traceIDs.take (min (80 * i + 80) traceIDs.length)).drop (80 * i)

/-! ## Concrete surroundings -/

/-- A cache whose entry is fresh and readable; only the content `"42"` decodes. -/
def fileCache.entryWith (content : String) : fileCache.Env Unit Nat where
  key := fun op site _ => op ++ "_" ++ site ++ ".json"
  stat := fun _ => .ok 0
  now := 10
  readFile := fun _ => .ok content
  unmarshal := fun b => if b = "42" then .ok 42 else .error "invalid JSON"

/-- A cache whose entry is fresh but cannot be read. -/
def fileCache.unreadableEntry : fileCache.Env Unit Nat where
  key := fun op site _ => op ++ "_" ++ site ++ ".json"
  stat := fun _ => .ok 0
  now := 10
  readFile := fun _ => .error "permission denied"
  unmarshal := fun b => if b = "42" then .ok 42 else .error "invalid JSON"

/-- A backend without cache: the request without cursor gets `first`, a request
with cursor `c` gets `next c`. -/
def fakeBackend (first : SpansListResponse) (next : String → SpansListResponse) :
    ListSpansEnv Unit where
  cacheGet := fun w _ => (none, w)
  ListSpans := fun w req =>
    match req with
    | none => (.ok first, w)
    | some c => (.ok (next c), w)
  cacheSet := fun w _ _ => w

/-- A backend with three pages, the cursors `"c1"` and `"c2"` leading to the
second and the third; the third page has an empty `after`. -/
def threePages : ListSpansEnv Unit :=
  fakeBackend ⟨["t1", "t2"], "c1"⟩
    (fun c => if c = "c1" then ⟨["t2", "", "t3"], "c2"⟩ else ⟨["t4"], ""⟩)

/-- A backend whose first page carries the trace IDs `ids` and no cursor. -/
def firstPage (ids : List String) : ListSpansEnv Unit :=
  fakeBackend ⟨ids, ""⟩ (fun _ => ⟨[], ""⟩)

/-- An aggregation backend without cache whose every query succeeds with no
row. -/
def emptyAggregates : AggregateSpansEnv Unit where
  cacheGet := fun w _ => (none, w)
  AggregateSpans := fun w _ => (.ok [], w)
  cacheSet := fun w _ _ => w

/-- An aggregation backend without cache whose every query fails. -/
def failingAggregates : AggregateSpansEnv Unit where
  cacheGet := fun w _ => (none, w)
  AggregateSpans := fun w _ => (.error "503", w)
  cacheSet := fun w _ _ => w

/-! ## Properties of `sortSlice` -/

section SortSlice

variable {α β : Type} [LinearOrder β]

theorem sortSlice_perm (less : α → α → Bool) (l : List α) : (sortSlice less l).Perm l :=
  List.perm_insertionSort _ l

theorem sortSlice_sorted (less : α → α → Bool) (rank : α → β)
    (hless : ∀ a b, less a b = true ↔ rank a < rank b) (l : List α) :
    (sortSlice less l).Pairwise (fun a b => rank a ≤ rank b) := by
  have hr : ∀ a b, (less b a = false) ↔ rank a ≤ rank b := by
    intro a b
    rw [← not_lt, ← hless b a]
    cases less b a <;> simp
  haveI : IsTotal α (fun a b => less b a = false) :=
    ⟨fun a b => by
      rcases le_total (rank a) (rank b) with h | h
      · exact Or.inl ((hr a b).2 h)
      · exact Or.inr ((hr b a).2 h)⟩
  haveI : IsTrans α (fun a b => less b a = false) :=
    ⟨fun a b c hab hbc => (hr a c).2 (le_trans ((hr a b).1 hab) ((hr b c).1 hbc))⟩
  have hs : List.Sorted (fun a b => less b a = false) (sortSlice less l) :=
    List.sorted_insertionSort _ l
  exact List.Pairwise.imp (fun {a b} h => (hr a b).1 h) hs

theorem eq_of_perm_of_rank_sorted (rank : α → β) (hinj : Function.Injective rank)
    {l₁ l₂ : List α} (hp : l₁.Perm l₂)
    (h₁ : l₁.Pairwise (fun a b => rank a ≤ rank b))
    (h₂ : l₂.Pairwise (fun a b => rank a ≤ rank b)) : l₁ = l₂ := by
  haveI : IsAntisymm α (fun a b => rank a ≤ rank b) :=
    ⟨fun a b hab hba => hinj (le_antisymm hab hba)⟩
  exact List.eq_of_perm_of_sorted hp h₁ h₂

/-- For a comparator that is a strict total order, the sorted slice depends
neither on the order of the elements before the call nor on the sorting
algorithm: every sorted arrangement of the elements is the output. -/
theorem sortSlice_unique (less : α → α → Bool) (rank : α → β)
    (hless : ∀ a b, less a b = true ↔ rank a < rank b) (hinj : Function.Injective rank)
    {l l₁ : List α} (hp : l₁.Perm l) (hs : l₁.Pairwise (fun a b => rank a ≤ rank b)) :
    l₁ = sortSlice less l :=
  eq_of_perm_of_rank_sorted rank hinj (hp.trans (sortSlice_perm less l).symm) hs
    (sortSlice_sorted less rank hless l)

theorem sortSlice_eq_of_perm (less : α → α → Bool) (rank : α → β)
    (hless : ∀ a b, less a b = true ↔ rank a < rank b) (hinj : Function.Injective rank)
    {l₁ l₂ : List α} (hp : l₁.Perm l₂) : sortSlice less l₁ = sortSlice less l₂ :=
  sortSlice_unique less rank hless hinj ((sortSlice_perm less l₁).trans hp)
    (sortSlice_sorted less rank hless l₁)

theorem sortSlice_strict (less : α → α → Bool) (rank : α → β)
    (hless : ∀ a b, less a b = true ↔ rank a < rank b) (hinj : Function.Injective rank)
    {l : List α} (hnd : l.Nodup) :
    (sortSlice less l).Pairwise (fun a b => rank a < rank b) := by
  have hs := sortSlice_sorted less rank hless l
  have hnd1 : (sortSlice less l).Nodup := (sortSlice_perm less l).nodup_iff.2 hnd
  have hne : (sortSlice less l).Pairwise (fun a b => a ≠ b) := hnd1
  refine (hs.and hne).imp ?_
  rintro a b ⟨hle, hab⟩
  exact lt_of_le_of_ne hle (fun h => hab (hinj h))

end SortSlice

/-! ## Properties of Go maps -/

section GoMap

variable {κ : Type} [DecidableEq κ]

theorem keys_mapAdd (m : List (κ × ℚ)) (k : κ) (c : ℚ) :
    (mapAdd m k c).map Prod.fst =
      if k ∈ m.map Prod.fst then m.map Prod.fst else m.map Prod.fst ++ [k] := by
  induction m with
  | nil => simp [mapAdd]
  | cons e rest ih =>
    obtain ⟨k0, v⟩ := e
    by_cases h : k0 = k
    · subst h
      simp [mapAdd]
    · have h1 : ¬ k = k0 := fun h2 => h h2.symm
      by_cases hk : k ∈ rest.map Prod.fst
      · simp only [mapAdd, h, if_false, List.map_cons, ih, hk, if_true, List.mem_cons, or_true]
      · simp only [mapAdd, h, if_false, List.map_cons, ih, hk, List.mem_cons, h1, or_self,
          List.cons_append]

theorem mapGet_mapAdd (m : List (κ × ℚ)) (k : κ) (c : ℚ) (k1 : κ) :
    mapGet (mapAdd m k c) k1 = if k = k1 then mapGet m k1 + c else mapGet m k1 := by
  induction m with
  | nil => by_cases h : k = k1 <;> simp [mapAdd, mapGet, h]
  | cons e rest ih =>
    obtain ⟨k0, v⟩ := e
    by_cases h : k0 = k
    · subst h
      by_cases h1 : k0 = k1 <;> simp [mapAdd, mapGet, h1]
    · by_cases h1 : k0 = k1
      · subst h1
        have h2 : ¬ k = k0 := fun h3 => h h3.symm
        simp [mapAdd, mapGet, h, h2]
      · simp only [mapAdd, h, if_false, mapGet, h1, ih]

theorem nodup_keys_mapAdd (m : List (κ × ℚ)) (k : κ) (c : ℚ)
    (h : (m.map Prod.fst).Nodup) : ((mapAdd m k c).map Prod.fst).Nodup := by
  rw [keys_mapAdd]
  by_cases hk : k ∈ m.map Prod.fst
  · simpa [hk] using h
  · simp only [hk, if_false]
    refine List.Nodup.append h (List.nodup_singleton k) ?_
    intro x hx hx1
    rw [List.mem_singleton] at hx1
    exact hk (hx1 ▸ hx)

theorem mem_iff_mapGet (m : List (κ × ℚ)) (h : (m.map Prod.fst).Nodup) (e : κ × ℚ) :
    e ∈ m ↔ e.1 ∈ m.map Prod.fst ∧ e.2 = mapGet m e.1 := by
  induction m with
  | nil => simp
  | cons e0 rest ih =>
    obtain ⟨k0, v0⟩ := e0
    obtain ⟨k, v⟩ := e
    rw [List.map_cons, List.nodup_cons] at h
    have ih1 := ih h.2
    by_cases hk : k0 = k
    · subst hk
      have hnot : (k0, v) ∉ rest := fun hm => h.1 (List.mem_map.2 ⟨(k0, v), hm, rfl⟩)
      simp only [List.mem_cons, Prod.mk.injEq, true_and, hnot, or_false, List.map_cons,
        true_or, mapGet, if_true]
    · have hk1 : ¬ k = k0 := fun h2 => hk h2.symm
      simp only [List.mem_cons, Prod.mk.injEq, hk1, false_and, false_or, List.map_cons,
        mapGet, hk, if_false]
      exact ih1

end GoMap

/-! ## Properties of `reduceRows` -/

theorem reduceRows_rank_lt_iff (a b : DepRow) :
    reduceRows.rank a < reduceRows.rank b ↔
      a.Count > b.Count ∨ (a.Count = b.Count ∧
        (a.PeerService < b.PeerService ∨
          (a.PeerService = b.PeerService ∧ a.OutgoingResource < b.OutgoingResource))) := by
  unfold reduceRows.rank
  rw [Prod.Lex.lt_iff, Prod.Lex.lt_iff]
  simp only [OrderDual.toDual_lt_toDual, EmbeddingLike.apply_eq_iff_eq, gt_iff_lt]

theorem reduceRows_less_iff (a b : DepRow) :
    reduceRows.less a b = true ↔ reduceRows.rank a < reduceRows.rank b := by
  rw [reduceRows_rank_lt_iff]
  unfold reduceRows.less
  by_cases hc : a.Count = b.Count
  · by_cases hp : a.PeerService = b.PeerService
    · simp [hc, hp]
    · simp [hc, hp]
  · simp [hc]

theorem reduceRows_rank_injective : Function.Injective reduceRows.rank := by
  intro a b h
  unfold reduceRows.rank at h
  have h1 := toLex.injective h
  rw [Prod.mk.injEq] at h1
  have h2 := toLex.injective h1.2
  rw [Prod.mk.injEq] at h2
  have h3 : a.Count = b.Count := OrderDual.toDual.injective h1.1
  cases a
  cases b
  simp only [DepRow.mk.injEq]
  exact ⟨h2.2, h2.1, h3⟩

theorem reduceRows_group_snoc (xs : List DepRow) (x : DepRow) :
    reduceRows.group (xs ++ [x]) =
      mapAdd (reduceRows.group xs) ⟨x.OutgoingResource, x.PeerService⟩ x.Count := by
  unfold reduceRows.group
  rw [List.foldl_append]
  rfl

theorem reduceRows_nodup_keys_group (xs : List DepRow) :
    ((reduceRows.group xs).map Prod.fst).Nodup := by
  induction xs using List.reverseRecOn with
  | nil => simp [reduceRows.group]
  | append_singleton l x ih =>
    rw [reduceRows_group_snoc]
    exact nodup_keys_mapAdd _ _ _ ih

theorem reduceRows_keys_group (xs : List DepRow) (k : reduceRows.key) :
    k ∈ (reduceRows.group xs).map Prod.fst ↔ ∃ x ∈ xs, rowPair x = (k.r, k.p) := by
  induction xs using List.reverseRecOn with
  | nil => simp [reduceRows.group]
  | append_singleton l x ih =>
    rw [reduceRows_group_snoc, keys_mapAdd]
    have hx : rowPair x = (k.r, k.p) ↔ k = ⟨x.OutgoingResource, x.PeerService⟩ := by
      cases k
      simp only [rowPair, Prod.mk.injEq, reduceRows.key.mk.injEq]
      constructor
      · rintro ⟨h1, h2⟩
        exact ⟨h1.symm, h2.symm⟩
      · rintro ⟨h1, h2⟩
        exact ⟨h1.symm, h2.symm⟩
    by_cases hk : (⟨x.OutgoingResource, x.PeerService⟩ : reduceRows.key) ∈
        (reduceRows.group l).map Prod.fst
    · simp only [hk, if_true, ih, List.mem_append, List.mem_singleton]
      constructor
      · rintro ⟨y, hy, hy1⟩
        exact ⟨y, Or.inl hy, hy1⟩
      · rintro ⟨y, hy | hy, hy1⟩
        · exact ⟨y, hy, hy1⟩
        · subst hy
          have hk1 := hx.1 hy1
          rw [← hk1] at hk
          exact (ih).1 hk
    · simp only [hk, if_false, List.mem_append, List.mem_singleton, ih]
      constructor
      · rintro (⟨y, hy, hy1⟩ | h)
        · exact ⟨y, Or.inl hy, hy1⟩
        · exact ⟨x, Or.inr rfl, hx.2 h⟩
      · rintro ⟨y, hy | hy, hy1⟩
        · exact Or.inl ⟨y, hy, hy1⟩
        · subst hy
          exact Or.inr (hx.1 hy1)

theorem pairTotal_nil (k : String × String) : pairTotal [] k = 0 := by
  simp [pairTotal]

theorem pairTotal_snoc (xs : List DepRow) (x : DepRow) (k : String × String) :
    pairTotal (xs ++ [x]) k =
      if rowPair x = k then pairTotal xs k + x.Count else pairTotal xs k := by
  unfold pairTotal
  by_cases h : rowPair x = k
  · simp [List.filter_append, List.filter_cons, h]
  · simp [List.filter_append, List.filter_cons, h]

theorem reduceRows_mapGet_group (xs : List DepRow) (k : reduceRows.key) :
    mapGet (reduceRows.group xs) k = pairTotal xs (k.r, k.p) := by
  induction xs using List.reverseRecOn with
  | nil => simp [reduceRows.group, mapGet, pairTotal_nil]
  | append_singleton l x ih =>
    rw [reduceRows_group_snoc, mapGet_mapAdd, pairTotal_snoc, ih]
    have hx : (⟨x.OutgoingResource, x.PeerService⟩ : reduceRows.key) = k ↔
        rowPair x = (k.r, k.p) := by
      cases k
      simp only [rowPair, Prod.mk.injEq, reduceRows.key.mk.injEq]
    by_cases h : (⟨x.OutgoingResource, x.PeerService⟩ : reduceRows.key) = k
    · rw [if_pos h, if_pos (hx.1 h)]
    · rw [if_neg h, if_neg (fun h1 => h (hx.2 h1))]

/-- The rows that `reduceRows` builds from its map, before sorting. -/
theorem reduceRows_mem_rows (xs : List DepRow) (row : DepRow) :
    row ∈ (reduceRows.group xs).map (fun e => DepRow.mk e.1.r e.1.p e.2) ↔
      (∃ x ∈ xs, rowPair x = rowPair row) ∧ row.Count = pairTotal xs (rowPair row) := by
  rw [List.mem_map]
  constructor
  · rintro ⟨e, he, rfl⟩
    have h := (mem_iff_mapGet _ (reduceRows_nodup_keys_group xs) e).1 he
    refine ⟨(reduceRows_keys_group xs e.1).1 h.1, ?_⟩
    show e.2 = pairTotal xs (e.1.r, e.1.p)
    rw [h.2, reduceRows_mapGet_group]
  · rintro ⟨hx, hc⟩
    refine ⟨(⟨row.OutgoingResource, row.PeerService⟩, row.Count), ?_, rfl⟩
    rw [mem_iff_mapGet _ (reduceRows_nodup_keys_group xs)]
    refine ⟨(reduceRows_keys_group xs _).2 hx, ?_⟩
    show row.Count = mapGet (reduceRows.group xs) ⟨row.OutgoingResource, row.PeerService⟩
    rw [reduceRows_mapGet_group]
    exact hc

theorem reduceRows_nodup_pairs_rows (xs : List DepRow) :
    (((reduceRows.group xs).map (fun e => DepRow.mk e.1.r e.1.p e.2)).map rowPair).Nodup := by
  rw [List.map_map]
  have h := reduceRows_nodup_keys_group xs
  have hinj : Function.Injective (fun k : reduceRows.key => (k.r, k.p)) := by
    intro a b hab
    cases a
    cases b
    simp only [Prod.mk.injEq] at hab
    simp only [reduceRows.key.mk.injEq]
    exact hab
  have h1 := List.Nodup.map hinj h
  rw [List.map_map] at h1
  exact h1

theorem reduceRows_perm_rows (xs : List DepRow) :
    (reduceRows xs).Perm ((reduceRows.group xs).map (fun e => DepRow.mk e.1.r e.1.p e.2)) :=
  sortSlice_perm _ _

theorem reduceRows_mem_iff (xs : List DepRow) (row : DepRow) :
    row ∈ reduceRows xs ↔
      (∃ x ∈ xs, rowPair x = rowPair row) ∧ row.Count = pairTotal xs (rowPair row) := by
  rw [(reduceRows_perm_rows xs).mem_iff]
  exact reduceRows_mem_rows xs row

theorem reduceRows_nodup_pairs (xs : List DepRow) : ((reduceRows xs).map rowPair).Nodup :=
  ((reduceRows_perm_rows xs).map rowPair).nodup_iff.2 (reduceRows_nodup_pairs_rows xs)

theorem reduceRows_nodup (xs : List DepRow) : (reduceRows xs).Nodup :=
  List.Nodup.of_map rowPair (reduceRows_nodup_pairs xs)

theorem reduceRows_sorted_rank (xs : List DepRow) :
    (reduceRows xs).Pairwise (fun a b => reduceRows.rank a ≤ reduceRows.rank b) :=
  sortSlice_sorted _ _ reduceRows_less_iff _

theorem reduceRows_sorted_strict (xs : List DepRow) :
    (reduceRows xs).Pairwise (fun a b => reduceRows.rank a < reduceRows.rank b) :=
  sortSlice_strict _ _ reduceRows_less_iff reduceRows_rank_injective
    (List.Nodup.of_map rowPair (reduceRows_nodup_pairs_rows xs))

/-- The output of `reduceRows` does not depend on the order in which the map is
iterated: sorting any arrangement `rows` of the rows built from the map, with
any algorithm that returns a sorted arrangement `out`, gives `reduceRows xs`. -/
theorem reduceRows_iteration_order_irrelevant (xs rows out : List DepRow)
    (hrows : rows.Perm ((reduceRows.group xs).map (fun e => DepRow.mk e.1.r e.1.p e.2)))
    (hout : out.Perm rows)
    (hsorted : out.Pairwise (fun a b => reduceRows.less b a = false)) :
    out = reduceRows xs := by
  refine sortSlice_unique _ _ reduceRows_less_iff reduceRows_rank_injective
    (hout.trans hrows) (hsorted.imp ?_)
  intro a b h
  rw [← not_lt, ← reduceRows_less_iff, h]
  simp

theorem pairTotal_perm {xs ys : List DepRow} (h : ys.Perm xs) (k : String × String) :
    pairTotal ys k = pairTotal xs k :=
  ((h.filter _).map _).sum_eq

theorem reduceRows_perm_of_same_rows {xs ys : List DepRow}
    (h : ∀ row, row ∈ reduceRows ys ↔ row ∈ reduceRows xs) : reduceRows ys = reduceRows xs :=
  eq_of_perm_of_rank_sorted reduceRows.rank reduceRows_rank_injective
    ((List.perm_ext_iff_of_nodup (reduceRows_nodup ys) (reduceRows_nodup xs)).2 h)
    (reduceRows_sorted_rank ys) (reduceRows_sorted_rank xs)

theorem filter_eq_singleton_of_nodup_map {α γ : Type} [DecidableEq γ] (f : α → γ) :
    ∀ (l : List α), (l.map f).Nodup → ∀ x ∈ l, l.filter (fun y => f y = f x) = [x] := by
  intro l
  induction l with
  | nil => intro _ x hx; simp at hx
  | cons a t ih =>
    intro hnd x hx
    rw [List.map_cons, List.nodup_cons] at hnd
    rcases List.mem_cons.1 hx with rfl | hx1
    · have hnone : t.filter (fun y => f y = f x) = [] := by
        rw [List.filter_eq_nil_iff]
        intro y hy hfy
        have hfy1 : f y = f x := by simpa using hfy
        exact hnd.1 (hfy1 ▸ List.mem_map_of_mem f hy)
      rw [List.filter_cons]
      simp [hnone]
    · have hne : ¬ f a = f x := fun hfa => hnd.1 (hfa ▸ List.mem_map_of_mem f hx1)
      rw [List.filter_cons]
      simp only [hne, decide_False, Bool.false_eq_true, if_false]
      exact ih hnd.2 x hx1

theorem pairTotal_of_nodup_pairs (l : List DepRow) (hnd : (l.map rowPair).Nodup)
    (x : DepRow) (hx : x ∈ l) : pairTotal l (rowPair x) = x.Count := by
  unfold pairTotal
  rw [filter_eq_singleton_of_nodup_map rowPair l hnd x hx]
  simp

/-- C1: `reduceRows xs` has pairwise distinct `(OutgoingResource, PeerService)`
pairs, and a row belongs to it exactly when its pair occurs in `xs` and its
count is the sum of the counts of the rows of `xs` with that pair: one row for
each distinct pair of `xs`, no other row, each with the summed count. -/
theorem reduceRows_one_row_per_pair_with_sum (xs : List DepRow) :
    ((reduceRows xs).map rowPair).Nodup ∧
    ∀ row : DepRow, row ∈ reduceRows xs ↔
      ((∃ x ∈ xs, rowPair x = rowPair row) ∧
        row.Count = ((xs.filter (fun x => rowPair x = rowPair row)).map DepRow.Count).sum) :=
  ⟨reduceRows_nodup_pairs xs, reduceRows_mem_iff xs⟩

/-- C2: the output of `reduceRows` is ordered by `Count` descending, ties on
`Count` by `PeerService` ascending, ties on both by `OutgoingResource`
ascending (every row precedes the rows after it in that order); the rows
`(A,P,5), (B,P,5), (C,Q,10)` come out as `(C,Q,10), (A,P,5), (B,P,5)`. -/
theorem reduceRows_sorted_count_desc_peer_resource_asc (xs : List DepRow) :
    (reduceRows xs).Pairwise (fun a b =>
      a.Count > b.Count ∨ (a.Count = b.Count ∧
        (a.PeerService < b.PeerService ∨
          (a.PeerService = b.PeerService ∧ a.OutgoingResource < b.OutgoingResource)))) ∧
    reduceRows [⟨"A", "P", 5⟩, ⟨"B", "P", 5⟩, ⟨"C", "Q", 10⟩] =
      [⟨"C", "Q", 10⟩, ⟨"A", "P", 5⟩, ⟨"B", "P", 5⟩] := by
  refine ⟨(reduceRows_sorted_strict xs).imp (fun {a b} h => (reduceRows_rank_lt_iff a b).1 h), ?_⟩
  simp [reduceRows, reduceRows.group, mapAdd, sortSlice, reduceRows.less,
    String.lt_iff_toList_lt]
  decide

/-- With exact counts, `reduceRows` gives the same sequence of rows on every
permutation of its input. -/
theorem reduceRows_eq_of_perm (xs ys : List DepRow) (h : ys.Perm xs) :
    reduceRows ys = reduceRows xs := by
  apply reduceRows_perm_of_same_rows
  intro row
  rw [reduceRows_mem_iff, reduceRows_mem_iff, pairTotal_perm h]
  constructor
  · rintro ⟨⟨x, hx, hx1⟩, hc⟩
    exact ⟨⟨x, h.mem_iff.1 hx, hx1⟩, hc⟩
  · rintro ⟨⟨x, hx, hx1⟩, hc⟩
    exact ⟨⟨x, h.mem_iff.2 hx, hx1⟩, hc⟩

/-- C6: `reduceRows` is idempotent. -/
theorem reduceRows_idempotent (xs : List DepRow) :
    reduceRows (reduceRows xs) = reduceRows xs := by
  have hfix : ∀ row, row ∈ reduceRows (reduceRows xs) ↔ row ∈ reduceRows xs := by
    intro row
    rw [reduceRows_mem_iff (reduceRows xs)]
    constructor
    · rintro ⟨⟨x, hx, hx1⟩, hc⟩
      rw [← hx1, pairTotal_of_nodup_pairs _ (reduceRows_nodup_pairs xs) x hx] at hc
      have hrow : row = x := by
        cases row
        cases x
        simp only [rowPair, Prod.mk.injEq] at hx1
        simp only [DepRow.mk.injEq]
        exact ⟨hx1.1.symm, hx1.2.symm, hc⟩
      rw [hrow]
      exact hx
    · intro hrow
      exact ⟨⟨row, hrow, rfl⟩,
        (pairTotal_of_nodup_pairs _ (reduceRows_nodup_pairs xs) row hrow).symm⟩
  have hperm : (reduceRows (reduceRows xs)).Perm (reduceRows xs) :=
    (List.perm_ext_iff_of_nodup (reduceRows_nodup _) (reduceRows_nodup xs)).2 hfix
  exact eq_of_perm_of_rank_sorted reduceRows.rank reduceRows_rank_injective hperm
    (reduceRows_sorted_rank _) (reduceRows_sorted_rank xs)

/-! ## `reduceRows` on `float64` counts -/

theorem float64_roundEven_intCast (z : ℤ) : float64.roundEven (z : ℚ) = z := by
  unfold float64.roundEven
  simp

theorem float64_ulp_pos (x : ℚ) : 0 < float64.ulp x := by
  unfold float64.ulp
  positivity

/-- A value that is an integer multiple of the spacing around it is not changed
by rounding. -/
theorem float64_round_of_multiple (x : ℚ) (z : ℤ) (h : x / float64.ulp x = z) :
    float64.round x = x := by
  unfold float64.round
  rw [h, float64_roundEven_intCast, ← h]
  exact div_mul_cancel₀ x (ne_of_gt (float64_ulp_pos x))

theorem float64_ulp_of_log (x : ℚ) (e : ℤ) (hx : 0 < |x|) (h1 : (2 : ℚ) ^ e ≤ |x|)
    (h2 : |x| < (2 : ℚ) ^ (e + 1)) (he : -1022 ≤ e) :
    float64.ulp x = (2 : ℚ) ^ (e - 52) := by
  have hlog : Int.log 2 |x| = e := by
    apply le_antisymm
    · have h3 := (Int.lt_zpow_iff_log_lt (b := 2) (by norm_num) hx).1
        (by exact_mod_cast h2 : |x| < ((2 : ℕ) : ℚ) ^ (e + 1))
      omega
    · exact (Int.zpow_le_iff_le_log (b := 2) (by norm_num) hx).1
        (by exact_mod_cast h1 : ((2 : ℕ) : ℚ) ^ e ≤ |x|)
  unfold float64.ulp
  rw [hlog, max_eq_left he]

/-- Natural numbers up to `2 ^ 53` are `float64` values. -/
theorem float64_round_natCast (n : ℕ) (h : n ≤ 2 ^ 53) : float64.round (n : ℚ) = n := by
  rcases Nat.eq_zero_or_pos n with h0 | hpos
  · subst h0
    apply float64_round_of_multiple _ 0
    simp
  · have hx : 0 < |(n : ℚ)| := by
      rw [abs_of_nonneg (Nat.cast_nonneg n)]
      exact_mod_cast hpos
    have hlog : Int.log 2 |(n : ℚ)| = Nat.log 2 n := by
      rw [abs_of_nonneg (Nat.cast_nonneg n)]
      exact Int.log_natCast 2 n
    have hle : 2 ^ Nat.log 2 n ≤ n := Nat.pow_log_le_self 2 (Nat.pos_iff_ne_zero.1 hpos)
    have he53 : Nat.log 2 n ≤ 53 := by
      by_contra hc
      have h54 : 54 ≤ Nat.log 2 n := by omega
      have : 2 ^ 54 ≤ 2 ^ Nat.log 2 n := Nat.pow_le_pow_right (by norm_num) h54
      have h55 : (2 : ℕ) ^ 54 ≤ 2 ^ 53 := le_trans this (le_trans hle h)
      norm_num at h55
    have hulp : float64.ulp (n : ℚ) = (2 : ℚ) ^ ((Nat.log 2 n : ℤ) - 52) := by
      unfold float64.ulp
      rw [hlog, max_eq_left (by omega)]
    rcases Nat.lt_or_ge (Nat.log 2 n) 53 with hlt | hge
    · apply float64_round_of_multiple _ ((n * 2 ^ (52 - Nat.log 2 n) : ℕ) : ℤ)
      rw [hulp]
      have hexp : ((Nat.log 2 n : ℤ) - 52) = -((52 - Nat.log 2 n : ℕ) : ℤ) := by omega
      rw [hexp, zpow_neg, zpow_natCast, div_inv_eq_mul]
      push_cast
      ring
    · have he : Nat.log 2 n = 53 := le_antisymm he53 hge
      have hn : n = 2 ^ 53 := le_antisymm h (he ▸ hle)
      apply float64_round_of_multiple _ ((2 ^ 52 : ℕ) : ℤ)
      rw [hulp, he, hn]
      norm_num

/-- The `float64` sum of two natural numbers is exact when it is at most
`2 ^ 53`. -/
theorem float64_add_natCast (a b : ℕ) (h : a + b ≤ 2 ^ 53) :
    float64.add (a : ℚ) (b : ℚ) = (a : ℚ) + (b : ℚ) := by
  unfold float64.add
  have hcast : (a : ℚ) + (b : ℚ) = ((a + b : ℕ) : ℚ) := by push_cast; ring
  rw [hcast]
  exact float64_round_natCast (a + b) h

theorem float64_round_above_2_pow_53 (x : ℚ) (h1 : (2 : ℚ) ^ 53 ≤ x) (h2 : x < (2 : ℚ) ^ 54) :
    float64.round x = (float64.roundEven (x / 2) : ℚ) * 2 := by
  have hpos : 0 < x := lt_of_lt_of_le (by norm_num) h1
  have habs : |x| = x := abs_of_pos hpos
  have hulp : float64.ulp x = 2 := by
    rw [float64_ulp_of_log x 53 (by rw [habs]; exact hpos) (by rw [habs]; exact_mod_cast h1)
      (by rw [habs]; exact_mod_cast h2) (by norm_num)]
    norm_num
  unfold float64.round
  rw [hulp]

theorem float64_add_1e16_1 :
    float64.add 10000000000000000 1 = 10000000000000000 := by
  unfold float64.add
  rw [float64_round_above_2_pow_53 _ (by norm_num) (by norm_num)]
  have hfloor : ⌊((10000000000000000 : ℚ) + 1) / 2⌋ = 5000000000000000 := by
    rw [Int.floor_eq_iff]
    constructor <;> norm_num
  have hround : float64.roundEven (((10000000000000000 : ℚ) + 1) / 2) = 5000000000000000 := by
    unfold float64.roundEven
    rw [hfloor]
    norm_num
  rw [hround]
  norm_num

theorem float64_add_2_1e16 :
    float64.add 2 10000000000000000 = 10000000000000002 := by
  unfold float64.add
  rw [float64_round_above_2_pow_53 _ (by norm_num) (by norm_num)]
  have hq : ((2 : ℚ) + 10000000000000000) / 2 = ((5000000000000001 : ℤ) : ℚ) := by norm_num
  rw [hq, float64_roundEven_intCast]
  norm_num

theorem float64_add_0_1e16 :
    float64.add 0 10000000000000000 = 10000000000000000 := by
  unfold float64.add
  rw [float64_round_above_2_pow_53 _ (by norm_num) (by norm_num)]
  have hq : ((0 : ℚ) + 10000000000000000) / 2 = ((5000000000000000 : ℤ) : ℚ) := by norm_num
  rw [hq, float64_roundEven_intCast]
  norm_num

theorem float64_add_0_1 : float64.add 0 1 = 1 := by
  have h := float64_add_natCast 0 1 (by norm_num)
  simpa using h

theorem float64_add_1_1 : float64.add 1 1 = 2 := by
  have h := float64_add_natCast 1 1 (by norm_num)
  norm_num at h
  exact h

theorem mapAddWith_eq_mapAdd {κ : Type} [DecidableEq κ] (add : ℚ → ℚ → ℚ)
    (m : List (κ × ℚ)) (k : κ) (c : ℚ) (h : add (mapGet m k) c = mapGet m k + c) :
    mapAddWith add m k c = mapAdd m k c := by
  induction m with
  | nil =>
    simp only [mapGet] at h
    simp [mapAddWith, mapAdd, h]
  | cons e rest ih =>
    obtain ⟨k0, v⟩ := e
    by_cases hk : k0 = k
    · simp only [mapGet, hk, if_true] at h
      simp [mapAddWith, mapAdd, hk, h]
    · simp only [mapGet, hk, if_false] at h
      simp [mapAddWith, mapAdd, hk, ih h]

theorem reduceRows_groupWith_snoc (add : ℚ → ℚ → ℚ) (xs : List DepRow) (x : DepRow) :
    reduceRows.groupWith add (xs ++ [x]) =
      mapAddWith add (reduceRows.groupWith add xs) ⟨x.OutgoingResource, x.PeerService⟩
        x.Count := by
  unfold reduceRows.groupWith
  rw [List.foldl_append]
  rfl

/-- With natural counts, the sum of the counts of a pair is a natural number, at
most the sum of all counts. -/
theorem pairTotal_natCast (xs : List DepRow) (k : String × String) :
    (∀ x ∈ xs, ∃ n : ℕ, x.Count = n) →
      ∃ m : ℕ, pairTotal xs k = m ∧ (m : ℚ) ≤ (xs.map DepRow.Count).sum := by
  induction xs using List.reverseRecOn with
  | nil =>
    intro _
    exact ⟨0, by simp [pairTotal_nil], by simp⟩
  | append_singleton l x ih =>
    intro hnat
    obtain ⟨m, hm, hle⟩ := ih (fun y hy => hnat y (List.mem_append_left _ hy))
    obtain ⟨n, hn⟩ := hnat x (List.mem_append_right _ (List.mem_singleton_self x))
    have hsum : ((l ++ [x]).map DepRow.Count).sum = (l.map DepRow.Count).sum + n := by
      simp [hn]
    have hn0 : (0 : ℚ) ≤ n := Nat.cast_nonneg n
    rw [pairTotal_snoc, hsum]
    by_cases hk : rowPair x = k
    · refine ⟨m + n, ?_, ?_⟩
      · rw [if_pos hk, hm, hn]
        push_cast
        ring
      · push_cast
        linarith
    · refine ⟨m, ?_, ?_⟩
      · rw [if_neg hk, hm]
      · linarith

/-- On natural counts whose total is at most `2 ^ 53`, every `float64` addition
made by `reduceRows` is exact. -/
theorem reduceRows_groupWith_float64 (xs : List DepRow) :
    (∀ x ∈ xs, ∃ n : ℕ, x.Count = n) → (xs.map DepRow.Count).sum ≤ 2 ^ 53 →
      reduceRows.groupWith float64.add xs = reduceRows.group xs := by
  induction xs using List.reverseRecOn with
  | nil =>
    intro _ _
    rfl
  | append_singleton l x ih =>
    intro hnat hsum
    obtain ⟨n, hn⟩ := hnat x (List.mem_append_right _ (List.mem_singleton_self x))
    have hnatl : ∀ y ∈ l, ∃ n : ℕ, y.Count = n :=
      fun y hy => hnat y (List.mem_append_left _ hy)
    have hsum1 : ((l ++ [x]).map DepRow.Count).sum = (l.map DepRow.Count).sum + n := by
      simp [hn]
    have hn0 : (0 : ℚ) ≤ n := Nat.cast_nonneg n
    rw [hsum1] at hsum
    have hl := ih hnatl (by linarith)
    rw [reduceRows_groupWith_snoc, reduceRows_group_snoc, hl]
    apply mapAddWith_eq_mapAdd
    rw [reduceRows_mapGet_group]
    obtain ⟨m, hm, hle⟩ := pairTotal_natCast l (x.OutgoingResource, x.PeerService) hnatl
    rw [hm, hn]
    apply float64_add_natCast
    have h1 : ((m + n : ℕ) : ℚ) ≤ ((2 ^ 53 : ℕ) : ℚ) := by
      push_cast
      linarith
    exact_mod_cast h1

theorem reduceRowsWith_float64_eq (xs : List DepRow)
    (hnat : ∀ x ∈ xs, ∃ n : ℕ, x.Count = n) (hsum : (xs.map DepRow.Count).sum ≤ 2 ^ 53) :
    reduceRowsWith float64.add xs = reduceRows xs := by
  unfold reduceRowsWith reduceRows
  rw [reduceRows_groupWith_float64 xs hnat hsum]

/-- With the exact addition, `reduceRowsWith` is `reduceRows`. -/
theorem reduceRowsWith_exact (xs : List DepRow) :
    reduceRowsWith (fun a b => a + b) xs = reduceRows xs := by
  have hgroup : reduceRows.groupWith (fun a b => a + b) xs = reduceRows.group xs := by
    induction xs using List.reverseRecOn with
    | nil => rfl
    | append_singleton l x ih =>
      rw [reduceRows_groupWith_snoc, reduceRows_group_snoc, ih]
      exact mapAddWith_eq_mapAdd _ _ _ _ rfl
  unfold reduceRowsWith reduceRows
  rw [hgroup]

/-- C5, as it fails: on `float64` counts the rows `(A,P,1e16), (A,P,1), (A,P,1)`
reduce to the count `1e16`, and the same rows in the order
`(A,P,1), (A,P,1), (A,P,1e16)` to the count `1e16 + 2`: two permutations of one
input with different results. -/
theorem reduceRows_float64_depends_on_order :
    ([⟨"A", "P", 1⟩, ⟨"A", "P", 1⟩, ⟨"A", "P", 10000000000000000⟩] : List DepRow).Perm
      [⟨"A", "P", 10000000000000000⟩, ⟨"A", "P", 1⟩, ⟨"A", "P", 1⟩] ∧
    reduceRowsWith float64.add
        [⟨"A", "P", 10000000000000000⟩, ⟨"A", "P", 1⟩, ⟨"A", "P", 1⟩] =
      [⟨"A", "P", 10000000000000000⟩] ∧
    reduceRowsWith float64.add
        [⟨"A", "P", 1⟩, ⟨"A", "P", 1⟩, ⟨"A", "P", 10000000000000000⟩] =
      [⟨"A", "P", 10000000000000002⟩] ∧
    reduceRowsWith float64.add
        [⟨"A", "P", 1⟩, ⟨"A", "P", 1⟩, ⟨"A", "P", 10000000000000000⟩] ≠
      reduceRowsWith float64.add
        [⟨"A", "P", 10000000000000000⟩, ⟨"A", "P", 1⟩, ⟨"A", "P", 1⟩] := by
  have h1 : reduceRowsWith float64.add
      [⟨"A", "P", 10000000000000000⟩, ⟨"A", "P", 1⟩, ⟨"A", "P", 1⟩] =
        [⟨"A", "P", 10000000000000000⟩] := by
    simp [reduceRowsWith, reduceRows.groupWith, mapAddWith, sortSlice, float64_add_0_1e16,
      float64_add_1e16_1]
  have h2 : reduceRowsWith float64.add
      [⟨"A", "P", 1⟩, ⟨"A", "P", 1⟩, ⟨"A", "P", 10000000000000000⟩] =
        [⟨"A", "P", 10000000000000002⟩] := by
    simp [reduceRowsWith, reduceRows.groupWith, mapAddWith, sortSlice, float64_add_0_1,
      float64_add_1_1, float64_add_2_1e16]
  refine ⟨?_, h1, h2, ?_⟩
  · exact @List.perm_append_comm DepRow [⟨"A", "P", 1⟩, ⟨"A", "P", 1⟩]
      [⟨"A", "P", 10000000000000000⟩]
  · rw [h1, h2]
    simp

/-- C5, amended: with counts taken as exact numbers, `reduceRows` gives the same
sequence of rows on every permutation of its input; on `float64` counts it does
so whenever the counts are natural numbers whose total is at most `2 ^ 53`, and
its result is then the one with exact counts. -/
theorem reduceRows_permutation_invariant (xs ys : List DepRow) (h : ys.Perm xs) :
    reduceRows ys = reduceRows xs ∧
    ((∀ x ∈ xs, ∃ n : ℕ, x.Count = n) → (xs.map DepRow.Count).sum ≤ 2 ^ 53 →
      reduceRowsWith float64.add xs = reduceRows xs ∧
      reduceRowsWith float64.add ys = reduceRowsWith float64.add xs) := by
  refine ⟨reduceRows_eq_of_perm xs ys h, ?_⟩
  intro hnat hsum
  have hnaty : ∀ y ∈ ys, ∃ n : ℕ, y.Count = n := fun y hy => hnat y (h.mem_iff.1 hy)
  have hsumy : (ys.map DepRow.Count).sum ≤ 2 ^ 53 := by
    rw [(h.map DepRow.Count).sum_eq]
    exact hsum
  refine ⟨reduceRowsWith_float64_eq xs hnat hsum, ?_⟩
  rw [reduceRowsWith_float64_eq xs hnat hsum, reduceRowsWith_float64_eq ys hnaty hsumy]
  exact reduceRows_eq_of_perm xs ys h

/-- Witness of amended C5: two rows of one pair and a row of another, in two
orders. -/
theorem reduceRows_permutation_invariant_witness :
    ([⟨"B", "P", 5⟩, ⟨"A", "P", 5⟩] : List DepRow).Perm [⟨"A", "P", 5⟩, ⟨"B", "P", 5⟩] ∧
    (∀ x ∈ ([⟨"A", "P", 5⟩, ⟨"B", "P", 5⟩] : List DepRow), ∃ n : ℕ, x.Count = n) ∧
    (([⟨"A", "P", 5⟩, ⟨"B", "P", 5⟩] : List DepRow).map DepRow.Count).sum ≤ 2 ^ 53 ∧
    reduceRows [⟨"B", "P", 5⟩, ⟨"A", "P", 5⟩] = reduceRows [⟨"A", "P", 5⟩, ⟨"B", "P", 5⟩] ∧
    reduceRowsWith float64.add [⟨"B", "P", 5⟩, ⟨"A", "P", 5⟩] =
      reduceRowsWith float64.add [⟨"A", "P", 5⟩, ⟨"B", "P", 5⟩] :=
  have hnat : ∀ x ∈ ([⟨"A", "P", 5⟩, ⟨"B", "P", 5⟩] : List DepRow), ∃ n : ℕ, x.Count = n := by
    intro x hx
    simp only [List.mem_cons, List.mem_singleton, List.not_mem_nil, or_false] at hx
    rcases hx with rfl | rfl <;> exact ⟨5, by norm_num⟩
  have hsum : (([⟨"A", "P", 5⟩, ⟨"B", "P", 5⟩] : List DepRow).map DepRow.Count).sum ≤
      2 ^ 53 := by
    norm_num
  ⟨List.Perm.swap _ _ _, hnat, hsum,
    (reduceRows_permutation_invariant _ _ (List.Perm.swap _ _ _)).1,
    ((reduceRows_permutation_invariant _ _ (List.Perm.swap _ _ _)).2 hnat hsum).2⟩

/-! ## Properties of `toSortedBuckets` -/

theorem forall_isSpace_of_dropWhile (l : List Char)
    (h : ∀ c ∈ l.dropWhile isSpace, isSpace c = true) : ∀ c ∈ l, isSpace c = true := by
  induction l with
  | nil => intro c hc; simp at hc
  | cons a t ih =>
    by_cases ha : isSpace a = true
    · rw [List.dropWhile_cons_of_pos ha] at h
      intro c hc
      rcases List.mem_cons.1 hc with rfl | hc1
      · exact ha
      · exact ih h c hc1
    · rw [List.dropWhile_cons_of_neg ha] at h
      exact h

theorem TrimSpace_eq_empty_iff (s : String) : TrimSpace s = "" ↔ blank s := by
  unfold TrimSpace blank
  have hmk : ∀ l : List Char, String.mk l = "" ↔ l = [] := by
    intro l
    constructor
    · intro h
      have h1 := congrArg String.data h
      simpa using h1
    · intro h
      rw [h]
  rw [hmk, List.reverse_eq_nil_iff, List.dropWhile_eq_nil_iff]
  constructor
  · intro h
    apply forall_isSpace_of_dropWhile
    intro c hc
    exact h c (List.mem_reverse.2 hc)
  · intro h c hc
    have hc1 : c ∈ s.toList.dropWhile isSpace := List.mem_reverse.1 hc
    exact h c ((List.dropWhile_sublist _).subset hc1)

theorem toSortedBuckets_rank_lt_iff (a b : Bucket) :
    toSortedBuckets.rank a < toSortedBuckets.rank b ↔
      a.Count > b.Count ∨ (a.Count = b.Count ∧ a.Name < b.Name) := by
  unfold toSortedBuckets.rank
  rw [Prod.Lex.lt_iff]
  simp only [OrderDual.toDual_lt_toDual, EmbeddingLike.apply_eq_iff_eq, gt_iff_lt]

theorem toSortedBuckets_less_iff (a b : Bucket) :
    toSortedBuckets.less a b = true ↔ toSortedBuckets.rank a < toSortedBuckets.rank b := by
  rw [toSortedBuckets_rank_lt_iff]
  unfold toSortedBuckets.less
  by_cases hc : a.Count = b.Count
  · simp [hc]
  · simp [hc]

theorem toSortedBuckets_rank_injective : Function.Injective toSortedBuckets.rank := by
  intro a b h
  unfold toSortedBuckets.rank at h
  have h1 := toLex.injective h
  rw [Prod.mk.injEq] at h1
  have h3 : a.Count = b.Count := OrderDual.toDual.injective h1.1
  cases a
  cases b
  simp only [Bucket.mk.injEq]
  exact ⟨h1.2, h3⟩

/-- The buckets that `toSortedBuckets` collects from the map, before sorting. -/
theorem toSortedBuckets_mem_out (m : List (String × ℚ)) (b : Bucket) :
    b ∈ m.filterMap
        (fun e => if TrimSpace e.1 = "" then none else some (Bucket.mk e.1 e.2)) ↔
      (b.Name, b.Count) ∈ m ∧ ¬ blank b.Name := by
  rw [List.mem_filterMap]
  constructor
  · rintro ⟨e, he, hb⟩
    by_cases ht : TrimSpace e.1 = ""
    · simp [ht] at hb
    · simp only [ht, if_false, Option.some.injEq] at hb
      subst hb
      exact ⟨he, fun hbl => ht ((TrimSpace_eq_empty_iff _).2 hbl)⟩
  · rintro ⟨he, hbl⟩
    refine ⟨(b.Name, b.Count), he, ?_⟩
    have ht : ¬ TrimSpace b.Name = "" := fun h => hbl ((TrimSpace_eq_empty_iff _).1 h)
    simp only [ht, if_false]

theorem toSortedBuckets_names_out_sublist (m : List (String × ℚ)) :
    ((m.filterMap
        (fun e => if TrimSpace e.1 = "" then none else some (Bucket.mk e.1 e.2))).map
      Bucket.Name).Sublist (m.map Prod.fst) := by
  induction m with
  | nil => simp
  | cons e t ih =>
    by_cases ht : TrimSpace e.1 = ""
    · rw [List.filterMap_cons_none (by simp [ht]), List.map_cons]
      exact List.Sublist.cons _ ih
    · rw [List.filterMap_cons_some (b := Bucket.mk e.1 e.2) (by simp [ht]), List.map_cons,
        List.map_cons]
      exact List.Sublist.cons₂ _ ih

theorem toSortedBuckets_perm_out (m : List (String × ℚ)) :
    (toSortedBuckets m).Perm (m.filterMap
      (fun e => if TrimSpace e.1 = "" then none else some (Bucket.mk e.1 e.2))) :=
  sortSlice_perm _ _

/-- C9: for a map `m` (its entries have pairwise distinct names),
`toSortedBuckets m` holds exactly the buckets `(name, m[name])` of the entries
whose name is not empty or white space only, one bucket per such name, and is
ordered by `Count` descending with ties broken by `Name` ascending. -/
theorem toSortedBuckets_drops_blank_names_and_sorts (m : List (String × ℚ))
    (hm : (m.map Prod.fst).Nodup) :
    (∀ b : Bucket, b ∈ toSortedBuckets m ↔ ((b.Name, b.Count) ∈ m ∧ ¬ blank b.Name)) ∧
    (∀ b ∈ toSortedBuckets m, ¬ blank b.Name) ∧
    ((toSortedBuckets m).map Bucket.Name).Nodup ∧
    (toSortedBuckets m).Pairwise (fun a b =>
      a.Count > b.Count ∨ (a.Count = b.Count ∧ a.Name < b.Name)) := by
  have hmem : ∀ b : Bucket, b ∈ toSortedBuckets m ↔ ((b.Name, b.Count) ∈ m ∧ ¬ blank b.Name) := by
    intro b
    rw [(toSortedBuckets_perm_out m).mem_iff]
    exact toSortedBuckets_mem_out m b
  have hnames : ((m.filterMap
      (fun e => if TrimSpace e.1 = "" then none else some (Bucket.mk e.1 e.2))).map
        Bucket.Name).Nodup :=
    List.Nodup.sublist (toSortedBuckets_names_out_sublist m) hm
  refine ⟨hmem, fun b hb => ((hmem b).1 hb).2, ?_, ?_⟩
  · exact ((toSortedBuckets_perm_out m).map Bucket.Name).nodup_iff.2 hnames
  · exact (sortSlice_strict _ _ toSortedBuckets_less_iff toSortedBuckets_rank_injective
      (List.Nodup.of_map Bucket.Name hnames)).imp
        (fun {a b} h => (toSortedBuckets_rank_lt_iff a b).1 h)

/-- Witness of C9 on a map with an empty name and a white-space name. -/
theorem toSortedBuckets_drops_blank_names_and_sorts_witness :
    (([("a", 3), (" ", 9), ("b", 3), ("", 1), ("c", 5)] : List (String × ℚ)).map
      Prod.fst).Nodup ∧
    ((∀ b : Bucket, b ∈ toSortedBuckets [("a", 3), (" ", 9), ("b", 3), ("", 1), ("c", 5)] ↔
        ((b.Name, b.Count) ∈ ([("a", 3), (" ", 9), ("b", 3), ("", 1), ("c", 5)] :
          List (String × ℚ)) ∧ ¬ blank b.Name)) ∧
      (∀ b ∈ toSortedBuckets [("a", 3), (" ", 9), ("b", 3), ("", 1), ("c", 5)],
        ¬ blank b.Name) ∧
      ((toSortedBuckets [("a", 3), (" ", 9), ("b", 3), ("", 1), ("c", 5)]).map
        Bucket.Name).Nodup ∧
      (toSortedBuckets [("a", 3), (" ", 9), ("b", 3), ("", 1), ("c", 5)]).Pairwise (fun a b =>
        a.Count > b.Count ∨ (a.Count = b.Count ∧ a.Name < b.Name))) :=
  ⟨by decide, toSortedBuckets_drops_blank_names_and_sorts _ (by decide)⟩

/-- The map of the witness of C9 reduces to three buckets. -/
theorem toSortedBuckets_example :
    toSortedBuckets [("a", 3), (" ", 9), ("b", 3), ("", 1), ("c", 5)] =
      [⟨"c", 5⟩, ⟨"a", 3⟩, ⟨"b", 3⟩] := by
  simp [toSortedBuckets, sortSlice, toSortedBuckets.less, String.lt_iff_toList_lt, TrimSpace,
    isSpace]
  decide

/-! ## Properties of `fileCache.Get` -/

/-- C8, as it fails: on a fresh entry whose content does not deserialize `Get`
reports a hit together with the decoding error, and on a fresh entry that
cannot be read it returns the read error; neither is the miss without error of
the claim. -/
theorem fileCache_Get_corrupt_or_unreadable_entry :
    (fileCache.Get (fileCache.entryWith "corrupt") "v2.ListSpans" "datadoghq.com" () 100).hit = true ∧
    (fileCache.Get (fileCache.entryWith "corrupt") "v2.ListSpans" "datadoghq.com" () 100).err =
      some "invalid JSON" ∧
    (fileCache.Get fileCache.unreadableEntry "v2.ListSpans" "datadoghq.com" () 100).hit = false ∧
    (fileCache.Get fileCache.unreadableEntry "v2.ListSpans" "datadoghq.com" () 100).err =
      some "permission denied" := by
  refine ⟨?_, ?_, ?_, ?_⟩ <;> rfl

/-- C8, amended: `Get` returns a miss without error when the entry does not
exist (`os.Stat` fails) or its age exceeds `ttl`; it returns a miss together
with the read error when the entry is fresh and cannot be read; it returns a
hit without error and the decoded value when the entry is fresh, readable and
deserializes; and it reports a hit only when the entry exists, has age at most
`ttl` and was read. -/
theorem fileCache_Get_miss_and_hit_conditions {B V : Type} (c : fileCache.Env B V)
    (op site : String) (body : B) (ttl : Int) :
    (∀ e, c.stat (c.key op site body) = .error e →
      (fileCache.Get c op site body ttl).hit = false ∧
      (fileCache.Get c op site body ttl).err = none) ∧
    (∀ t, c.stat (c.key op site body) = .ok t → c.now - t > ttl →
      (fileCache.Get c op site body ttl).hit = false ∧
      (fileCache.Get c op site body ttl).err = none) ∧
    (∀ t e, c.stat (c.key op site body) = .ok t → c.now - t ≤ ttl →
      c.readFile (c.key op site body) = .error e →
      (fileCache.Get c op site body ttl).hit = false ∧
      (fileCache.Get c op site body ttl).err = some e) ∧
    (∀ t b v, c.stat (c.key op site body) = .ok t → c.now - t ≤ ttl →
      c.readFile (c.key op site body) = .ok b → c.unmarshal b = .ok v →
      (fileCache.Get c op site body ttl).hit = true ∧
      (fileCache.Get c op site body ttl).err = none ∧
      (fileCache.Get c op site body ttl).out = some v) ∧
    ((fileCache.Get c op site body ttl).hit = true →
      ∃ t b, c.stat (c.key op site body) = .ok t ∧ c.now - t ≤ ttl ∧
        c.readFile (c.key op site body) = .ok b) := by
  refine ⟨?_, ?_, ?_, ?_, ?_⟩
  · intro e he
    simp [fileCache.Get, he]
  · intro t ht hage
    simp [fileCache.Get, ht, hage]
  · intro t e ht hage hr
    have hage1 : ¬ ttl < c.now - t := not_lt.2 hage
    simp [fileCache.Get, ht, hr, hage1]
  · intro t b v ht hage hr hu
    have hage1 : ¬ ttl < c.now - t := not_lt.2 hage
    simp [fileCache.Get, ht, hr, hu, hage1]
  · intro hhit
    unfold fileCache.Get at hhit
    cases hs : c.stat (c.key op site body) with
    | error e => simp [hs] at hhit
    | ok t =>
      by_cases hage : c.now - t > ttl
      · simp [hs, hage] at hhit
      · cases hr : c.readFile (c.key op site body) with
        | error e =>
          have hage1 : ¬ ttl < c.now - t := hage
          simp [hs, hr, hage1] at hhit
        | ok b => exact ⟨t, b, rfl, not_lt.1 hage, rfl⟩

/-- Witness of amended C8: a fresh, readable entry holding `"42"` is a hit
without error. -/
theorem fileCache_Get_miss_and_hit_conditions_witness :
    (fileCache.Get (fileCache.entryWith "42") "v2.ListSpans" "datadoghq.com" () 100).hit = true ∧
    (fileCache.Get (fileCache.entryWith "42") "v2.ListSpans" "datadoghq.com" () 100).err = none ∧
    (fileCache.Get (fileCache.entryWith "42") "v2.ListSpans" "datadoghq.com" () 100).out =
      some 42 :=
  (fileCache_Get_miss_and_hit_conditions (fileCache.entryWith "42") "v2.ListSpans"
    "datadoghq.com" () 100).2.2.2.1 0 "42" 42 rfl (by decide) rfl rfl


/-! ## Properties of `uniq` -/

theorem uniq_loop_snoc (ss : List String) (s : String) :
    ∀ seen out : List String,
      uniq.loop seen out (ss ++ [s]) =
        if s ∈ seen ∨ s ∈ ss then uniq.loop seen out ss else uniq.loop seen out ss ++ [s] := by
  induction ss with
  | nil =>
    intro seen out
    by_cases h : s ∈ seen <;> simp [uniq.loop, h]
  | cons a t ih =>
    intro seen out
    by_cases ha : a ∈ seen
    · have hiff : (s ∈ seen ∨ s ∈ a :: t) ↔ (s ∈ seen ∨ s ∈ t) := by
        constructor
        · rintro (h | h)
          · exact Or.inl h
          · rcases List.mem_cons.1 h with h | h
            · exact Or.inl (h ▸ ha)
            · exact Or.inr h
        · rintro (h | h)
          · exact Or.inl h
          · exact Or.inr (List.mem_cons_of_mem _ h)
      rw [List.cons_append, uniq.loop, if_pos ha, ih seen out]
      simp only [hiff, uniq.loop, if_pos ha]
    · have hiff : (s ∈ seen ∨ s ∈ a :: t) ↔ (s ∈ a :: seen ∨ s ∈ t) := by
        simp only [List.mem_cons]
        tauto
      rw [List.cons_append, uniq.loop, if_neg ha, ih (a :: seen) (out ++ [a])]
      simp only [hiff, uniq.loop, if_neg ha]

theorem uniq_nil : uniq [] = [] := rfl

theorem uniq_snoc (ss : List String) (s : String) :
    uniq (ss ++ [s]) = if s ∈ ss then uniq ss else uniq ss ++ [s] := by
  unfold uniq
  rw [uniq_loop_snoc]
  simp

theorem mem_uniq (ss : List String) (x : String) : x ∈ uniq ss ↔ x ∈ ss := by
  induction ss using List.reverseRecOn with
  | nil => simp [uniq_nil]
  | append_singleton l s ih =>
    rw [uniq_snoc]
    by_cases h : s ∈ l
    · simp only [h, if_true, ih, List.mem_append, List.mem_singleton]
      constructor
      · exact Or.inl
      · rintro (hx | hx)
        · exact hx
        · exact hx ▸ h
    · simp only [h, if_false, List.mem_append, ih]

theorem nodup_uniq (ss : List String) : (uniq ss).Nodup := by
  induction ss using List.reverseRecOn with
  | nil => simp [uniq_nil]
  | append_singleton l s ih =>
    rw [uniq_snoc]
    by_cases h : s ∈ l
    · simpa [h] using ih
    · simp only [h, if_false]
      refine List.Nodup.append ih (List.nodup_singleton s) ?_
      intro x hx hs
      rw [List.mem_singleton] at hs
      exact h (hs ▸ (mem_uniq l x).1 hx)

theorem uniq_firstIndex_sorted (ss : List String) :
    List.Sorted (· < ·) ((uniq ss).map (fun s => ss.indexOf s)) := by
  induction ss using List.reverseRecOn with
  | nil => simp [uniq_nil]
  | append_singleton l s ih =>
    have hmap : (uniq l).map (fun x => (l ++ [s]).indexOf x) =
        (uniq l).map (fun x => l.indexOf x) := by
      apply List.map_congr_left
      intro x hx
      exact List.indexOf_append_of_mem ((mem_uniq l x).1 hx)
    rw [uniq_snoc]
    by_cases h : s ∈ l
    · simp only [h, if_true, hmap]
      exact ih
    · simp only [h, if_false, List.map_append, hmap, List.map_cons, List.map_nil]
      rw [List.indexOf_append_of_not_mem h]
      simp only [List.indexOf_cons_self, add_zero]
      unfold List.Sorted
      rw [List.pairwise_append]
      refine ⟨ih, List.pairwise_singleton _ _, ?_⟩
      intro i hi j hj
      rw [List.mem_singleton] at hj
      subst hj
      obtain ⟨x, hx, rfl⟩ := List.mem_map.1 hi
      exact List.indexOf_lt_length.2 ((mem_uniq l x).1 hx)

/-- C10: `uniq ss` has no duplicate element, has exactly the elements of `ss`,
and lists them in the order of their first occurrence in `ss` (the positions of
first occurrence are strictly increasing along the output); on
`["t1","t2","t1","t3"]` it yields `["t1","t2","t3"]`. -/
theorem uniq_dedup_first_seen (ss : List String) :
    (uniq ss).Nodup ∧
    (∀ s, s ∈ uniq ss ↔ s ∈ ss) ∧
    List.Sorted (· < ·) ((uniq ss).map (fun s => ss.indexOf s)) ∧
    uniq ["t1", "t2", "t1", "t3"] = ["t1", "t2", "t3"] :=
  ⟨nodup_uniq ss, mem_uniq ss, uniq_firstIndex_sorted ss, by decide⟩
/-! ## Properties of `listTraceIDs` -/

theorem nonEmptyIDs_snoc (pages : List SpansListResponse) (resp : SpansListResponse) :
    nonEmptyIDs (pages ++ [resp]) = nonEmptyIDs pages ++ resp.Data.filter (fun tid => tid ≠ "") := by
  simp [nonEmptyIDs]

/-- Without a positive `maxTraces` the loop over the spans never returns. -/
theorem listTraceIDs_scan_of_nonpos (maxTraces : Int) (hmax : maxTraces ≤ 0)
    (data : List String) :
    ∀ traceIDs, listTraceIDs.scan maxTraces traceIDs data =
      (traceIDs ++ data.filter (fun tid => tid ≠ ""), false) := by
  have hnot : ¬ maxTraces > 0 := not_lt.2 hmax
  induction data with
  | nil => intro traceIDs; simp [listTraceIDs.scan]
  | cons tid rest ih =>
    intro traceIDs
    by_cases ht : tid = ""
    · simp [listTraceIDs.scan, ht, ih]
    · simp [listTraceIDs.scan, ht, ih, hnot]

/-- With a positive `maxTraces` the loop over the spans returns exactly when
the accumulated list reaches length `maxTraces`, holding the first `maxTraces`
non-empty trace IDs. -/
theorem listTraceIDs_scan_of_pos (maxTraces : Int) (hmax : maxTraces > 0)
    (data : List String) :
    ∀ traceIDs : List String, traceIDs.length < maxTraces.toNat →
      listTraceIDs.scan maxTraces traceIDs data =
        if traceIDs.length + (data.filter (fun tid => tid ≠ "")).length < maxTraces.toNat then
          (traceIDs ++ data.filter (fun tid => tid ≠ ""), false)
        else
          ((traceIDs ++ data.filter (fun tid => tid ≠ "")).take maxTraces.toNat, true) := by
  have hM : ((maxTraces.toNat : Nat) : Int) = maxTraces := Int.toNat_of_nonneg (le_of_lt hmax)
  induction data with
  | nil =>
    intro traceIDs hlen
    simp [listTraceIDs.scan, hlen]
  | cons tid rest ih =>
    intro traceIDs hlen
    by_cases ht : tid = ""
    · simp only [listTraceIDs.scan, ht, ne_eq, not_true_eq_false, if_false, decide_False,
        List.filter_cons_of_neg, Bool.false_eq_true, not_false_eq_true]
      exact ih traceIDs hlen
    · have hf : (tid :: rest).filter (fun tid => tid ≠ "") =
          tid :: rest.filter (fun tid => tid ≠ "") := by
        simp [List.filter_cons, ht]
      rw [hf]
      by_cases hfull : traceIDs.length + 1 < maxTraces.toNat
      · have hcond : ¬ (maxTraces > 0 ∧ (((traceIDs ++ [tid]).length : Nat) : Int) ≥ maxTraces) := by
          rintro ⟨_, h2⟩
          rw [List.length_append, List.length_singleton] at h2
          omega
        have hlen1 : (traceIDs ++ [tid]).length < maxTraces.toNat := by
          rw [List.length_append, List.length_singleton]
          exact hfull
        rw [listTraceIDs.scan, if_pos ht, if_neg hcond, ih (traceIDs ++ [tid]) hlen1]
        simp only [List.length_append, List.length_singleton, List.length_cons,
          List.append_assoc, List.singleton_append, List.length_nil, zero_add]
        have harith : traceIDs.length + 1 + (rest.filter (fun tid => tid ≠ "")).length =
            traceIDs.length + ((rest.filter (fun tid => tid ≠ "")).length + 1) := by omega
        rw [harith]
      · have hcond : maxTraces > 0 ∧ (((traceIDs ++ [tid]).length : Nat) : Int) ≥ maxTraces := by
          refine ⟨hmax, ?_⟩
          rw [List.length_append, List.length_singleton]
          omega
        have hM1 : maxTraces.toNat = traceIDs.length + 1 := by omega
        have hnot : ¬ traceIDs.length + (tid :: rest.filter (fun tid => tid ≠ "")).length <
            maxTraces.toNat := by
          rw [List.length_cons]
          omega
        rw [listTraceIDs.scan, if_pos ht, if_pos hcond, if_neg hnot, hM1]
        have htake : (traceIDs ++ tid :: rest.filter (fun tid => tid ≠ "")).take
            (traceIDs.length + 1) = traceIDs ++ [tid] := by
          rw [List.take_append_eq_append_take]
          simp
        rw [htake]

/-- What an observation of `listTraceIDs` with a positive `maxTraces` can be,
from a state of the loop in which fewer than `maxTraces` non-empty trace IDs
were met, all of them on the pages fetched so far. -/
theorem listTraceIDs_loop_of_pos {σ : Type} (env : ListSpansEnv σ) (maxTraces : Int)
    (hmax : maxTraces > 0) :
    ∀ (fuel : Nat) (w : σ) (traceIDs : List String) (cursor : String)
      (reqCursor : Option String) (reqs : List (Option String))
      (pages : List SpansListResponse),
      traceIDs = nonEmptyIDs pages → traceIDs.length < maxTraces.toNat →
      reqs.length = pages.length →
      (∀ ids, (listTraceIDs.loop env maxTraces fuel w traceIDs cursor reqCursor reqs
            pages).result = some (.ok ids) →
        ids = uniq ((nonEmptyIDs (listTraceIDs.loop env maxTraces fuel w traceIDs cursor
            reqCursor reqs pages).pages).take maxTraces.toNat) ∧
        maxTraces.toNat ≤ (nonEmptyIDs (listTraceIDs.loop env maxTraces fuel w traceIDs cursor
            reqCursor reqs pages).pages).length ∧
        (nonEmptyIDs (listTraceIDs.loop env maxTraces fuel w traceIDs cursor
            reqCursor reqs pages).pages.dropLast).length < maxTraces.toNat ∧
        (listTraceIDs.loop env maxTraces fuel w traceIDs cursor reqCursor reqs
            pages).requests.length =
          (listTraceIDs.loop env maxTraces fuel w traceIDs cursor reqCursor reqs
            pages).pages.length) ∧
      (∀ err, (listTraceIDs.loop env maxTraces fuel w traceIDs cursor reqCursor reqs
            pages).result = some (.error err) →
        (nonEmptyIDs (listTraceIDs.loop env maxTraces fuel w traceIDs cursor
            reqCursor reqs pages).pages).length < maxTraces.toNat ∧
        (listTraceIDs.loop env maxTraces fuel w traceIDs cursor reqCursor reqs
            pages).requests.length =
          (listTraceIDs.loop env maxTraces fuel w traceIDs cursor reqCursor reqs
            pages).pages.length + 1) ∧
      ((listTraceIDs.loop env maxTraces fuel w traceIDs cursor reqCursor reqs
            pages).result = none →
        (nonEmptyIDs (listTraceIDs.loop env maxTraces fuel w traceIDs cursor
            reqCursor reqs pages).pages).length < maxTraces.toNat ∧
        (listTraceIDs.loop env maxTraces fuel w traceIDs cursor reqCursor reqs
            pages).pages.length = pages.length + fuel ∧
        (listTraceIDs.loop env maxTraces fuel w traceIDs cursor reqCursor reqs
            pages).requests.length = pages.length + fuel) := by
  intro fuel
  induction fuel with
  | zero =>
    intro w traceIDs cursor reqCursor reqs pages hids hlen hreqs
    simp only [listTraceIDs.loop]
    refine ⟨?_, ?_, ?_⟩
    · intro ids h
      simp at h
    · intro err h
      simp at h
    · intro _
      exact ⟨hids ▸ hlen, by simp, by simpa using hreqs⟩
  | succ n ih =>
    intro w traceIDs cursor reqCursor reqs pages hids hlen hreqs
    rw [listTraceIDs.loop]
    generalize (if cursor ≠ "" then some cursor else reqCursor) = rc
    rcases hf : listTraceIDs.fetch env w rc with ⟨res, w1⟩
    cases res with
    | error err =>
      simp only []
      refine ⟨?_, ?_, ?_⟩
      · intro ids h
        simp at h
      · intro err1 _
        refine ⟨hids ▸ hlen, ?_⟩
        simp [hreqs]
      · intro h
        simp at h
    | ok resp =>
      simp only []
      have hscan := listTraceIDs_scan_of_pos maxTraces hmax resp.Data traceIDs hlen
      by_cases hroom : traceIDs.length + (resp.Data.filter (fun tid => tid ≠ "")).length <
          maxTraces.toNat
      · rw [if_pos hroom] at hscan
        rw [hscan]
        simp only []
        have hids1 : traceIDs ++ resp.Data.filter (fun tid => tid ≠ "") =
            nonEmptyIDs (pages ++ [resp]) := by
          rw [nonEmptyIDs_snoc, hids]
        have hlen1 : (traceIDs ++ resp.Data.filter (fun tid => tid ≠ "")).length <
            maxTraces.toNat := by
          rw [List.length_append]
          exact hroom
        have hreqs1 : (reqs ++ [rc]).length = (pages ++ [resp]).length := by
          simp [hreqs]
        have h := ih w1 (traceIDs ++ resp.Data.filter (fun tid => tid ≠ "")) resp.After rc
          (reqs ++ [rc]) (pages ++ [resp]) hids1 hlen1 hreqs1
        refine ⟨h.1, h.2.1, ?_⟩
        intro hnone
        have h3 := h.2.2 hnone
        refine ⟨h3.1, ?_, ?_⟩
        · rw [h3.2.1, List.length_append, List.length_singleton]
          omega
        · rw [h3.2.2, List.length_append, List.length_singleton]
          omega
      · rw [if_neg hroom] at hscan
        rw [hscan]
        simp only []
        refine ⟨?_, ?_, ?_⟩
        · intro ids h
          simp only [Option.some.injEq, Except.ok.injEq] at h
          rw [nonEmptyIDs_snoc, ← hids, List.dropLast_concat, ← hids]
          refine ⟨h.symm, ?_, hlen, ?_⟩
          · rw [List.length_append]
            omega
          · simp [hreqs]
        · intro err h
          simp at h
        · intro h
          simp at h

theorem length_uniq_le (l : List String) : (uniq l).length ≤ l.length :=
  ((nodup_uniq l).subperm (fun x hx => (mem_uniq l x).1 hx)).length_le

theorem uniq_eq_self_length (l : List String) (h : l.Nodup) : (uniq l).length = l.length :=
  ((List.perm_ext_iff_of_nodup (nodup_uniq l) h).2 (mem_uniq l)).length_eq

/-- With `maxTraces = 0` the loop of `listTraceIDs` is left only through a
failed page request. -/
theorem listTraceIDs_loop_of_zero {σ : Type} (env : ListSpansEnv σ) :
    ∀ (fuel : Nat) (w : σ) (traceIDs : List String) (cursor : String)
      (reqCursor : Option String) (reqs : List (Option String))
      (pages : List SpansListResponse) (ids : List String),
      (listTraceIDs.loop env 0 fuel w traceIDs cursor reqCursor reqs pages).result ≠
        some (.ok ids) := by
  intro fuel
  induction fuel with
  | zero =>
    intro w traceIDs cursor reqCursor reqs pages ids
    simp [listTraceIDs.loop]
  | succ n ih =>
    intro w traceIDs cursor reqCursor reqs pages ids
    rw [listTraceIDs.loop]
    generalize (if cursor ≠ "" then some cursor else reqCursor) = rc
    rcases hf : listTraceIDs.fetch env w rc with ⟨res, w1⟩
    cases res with
    | error err => simp
    | ok resp =>
      simp only []
      rw [listTraceIDs_scan_of_nonpos 0 (le_refl 0)]
      exact ih _ _ _ _ _ _ ids

/-- On the three-page backend, once the third page was requested the loop
requests it again for ever. -/
theorem listTraceIDs_loop_threePages_stuck :
    ∀ (fuel : Nat) (traceIDs : List String) (cursor : String)
      (reqs : List (Option String)) (pages : List SpansListResponse),
      cursor = "" ∨ cursor = "c2" →
      (listTraceIDs.loop threePages 0 fuel () traceIDs cursor (some "c2") reqs pages).result =
          none ∧
      (listTraceIDs.loop threePages 0 fuel () traceIDs cursor (some "c2") reqs pages).requests =
          reqs ++ List.replicate fuel (some "c2") := by
  intro fuel
  induction fuel with
  | zero =>
    intro traceIDs cursor reqs pages _
    simp [listTraceIDs.loop]
  | succ n ih =>
    intro traceIDs cursor reqs pages hc
    have hrc : (if cursor ≠ "" then some cursor else some "c2") = some "c2" := by
      rcases hc with rfl | rfl <;> simp
    rw [listTraceIDs.loop, hrc]
    have hf : listTraceIDs.fetch threePages () (some "c2") = (.ok ⟨["t4"], ""⟩, ()) := by
      simp [listTraceIDs.fetch, threePages, fakeBackend]
    simp only [hf]
    rw [listTraceIDs_scan_of_nonpos 0 (le_refl 0)]
    simp only []
    have h := ih (traceIDs ++ List.filter (fun tid => decide (tid ≠ "")) ["t4"]) ""
      (reqs ++ [some "c2"]) (pages ++ [⟨["t4"], ""⟩]) (Or.inl rfl)
    refine ⟨h.1, ?_⟩
    rw [h.2, List.append_assoc, List.replicate_succ]
    rfl

theorem listTraceIDs_threePages_after_three (fuel : Nat) :
    (listTraceIDs threePages () 0 (fuel + 3)).result = none ∧
    (listTraceIDs threePages () 0 (fuel + 3)).requests =
      [none, some "c1", some "c2"] ++ List.replicate fuel (some "c2") := by
  have h := listTraceIDs_loop_threePages_stuck fuel ["t1", "t2", "t2", "t3", "t4"] ""
    [none, some "c1", some "c2"]
    [⟨["t1", "t2"], "c1"⟩, ⟨["t2", "", "t3"], "c2"⟩, ⟨["t4"], ""⟩] (Or.inl rfl)
  have hrun : listTraceIDs threePages () 0 (fuel + 3) =
      listTraceIDs.loop threePages 0 fuel () ["t1", "t2", "t2", "t3", "t4"] ""
        (some "c2") [none, some "c1", some "c2"]
        [⟨["t1", "t2"], "c1"⟩, ⟨["t2", "", "t3"], "c2"⟩, ⟨["t4"], ""⟩] := by
    simp [listTraceIDs, listTraceIDs.loop, listTraceIDs.fetch, listTraceIDs.scan, threePages,
      fakeBackend]
  rw [hrun]
  exact h

/-- C3, as it fails: on a backend with three pages, the last with an empty
`after`, and `maxTraces = 0`, `listTraceIDs` is still looping after any number
of iterations; after the three pages it requests the third page again at every
iteration. With `maxTraces = 0` no execution on any backend returns a list of
trace IDs. -/
theorem listTraceIDs_keeps_requesting_after_empty_cursor :
    (∀ fuel, (listTraceIDs threePages () 0 fuel).result = none) ∧
    (∀ fuel, (listTraceIDs threePages () 0 (fuel + 3)).requests =
      [none, some "c1", some "c2"] ++ List.replicate fuel (some "c2")) ∧
    (∀ (σ : Type) (env : ListSpansEnv σ) (w : σ) (fuel : Nat) (ids : List String),
      (listTraceIDs env w 0 fuel).result ≠ some (.ok ids)) := by
  refine ⟨?_, fun fuel => (listTraceIDs_threePages_after_three fuel).2, ?_⟩
  · intro fuel
    rcases fuel with _ | _ | _ | n
    · rfl
    · rfl
    · rfl
    · exact (listTraceIDs_threePages_after_three n).1
  · intro σ env w fuel ids
    exact listTraceIDs_loop_of_zero env fuel w [] "" none [] [] ids

/-- C4, as it fails: with `maxTraces = 2` and a first page yielding
`t1, t1, t3`, `listTraceIDs` returns after one request with the single trace
ID `t1`. -/
theorem listTraceIDs_early_exit_with_duplicate :
    (listTraceIDs (firstPage ["t1", "t1", "t3"]) () 2 1).result = some (.ok ["t1"]) ∧
    (listTraceIDs (firstPage ["t1", "t1", "t3"]) () 2 1).requests = [none] := by
  constructor <;> rfl

/-- C4, amended: with `maxTraces > 0`, `listTraceIDs` returns at the first page
on which the list of the non-empty trace IDs met so far, duplicates included,
reaches length `maxTraces`, requests no further page, and returns the first
`maxTraces` of them deduplicated: at least one and at most `maxTraces` distinct
trace IDs, exactly `maxTraces` when those first `maxTraces` are pairwise
distinct. It ends with an error only at a failed request before that, and it
is still running after `fuel` iterations only when the `fuel` pages obtained
carry fewer than `maxTraces` non-empty trace IDs. With `maxTraces = 2` and a
first page yielding `t1, t2, t3` it returns `t1, t2` after one request. -/
theorem listTraceIDs_maxTraces_early_exit {σ : Type} (env : ListSpansEnv σ) (w : σ)
    (maxTraces : Int) (fuel : Nat) (hmax : maxTraces > 0) :
    (∀ ids, (listTraceIDs env w maxTraces fuel).result = some (.ok ids) →
      ids = uniq ((nonEmptyIDs (listTraceIDs env w maxTraces fuel).pages).take
        maxTraces.toNat) ∧
      maxTraces.toNat ≤ (nonEmptyIDs (listTraceIDs env w maxTraces fuel).pages).length ∧
      (nonEmptyIDs (listTraceIDs env w maxTraces fuel).pages.dropLast).length <
        maxTraces.toNat ∧
      (listTraceIDs env w maxTraces fuel).requests.length =
        (listTraceIDs env w maxTraces fuel).pages.length ∧
      ids.Nodup ∧ 1 ≤ ids.length ∧ ids.length ≤ maxTraces.toNat ∧
      (((nonEmptyIDs (listTraceIDs env w maxTraces fuel).pages).take maxTraces.toNat).Nodup →
        ids.length = maxTraces.toNat)) ∧
    (∀ err, (listTraceIDs env w maxTraces fuel).result = some (.error err) →
      (nonEmptyIDs (listTraceIDs env w maxTraces fuel).pages).length < maxTraces.toNat ∧
      (listTraceIDs env w maxTraces fuel).requests.length =
        (listTraceIDs env w maxTraces fuel).pages.length + 1) ∧
    ((listTraceIDs env w maxTraces fuel).result = none →
      (nonEmptyIDs (listTraceIDs env w maxTraces fuel).pages).length < maxTraces.toNat ∧
      (listTraceIDs env w maxTraces fuel).pages.length = fuel ∧
      (listTraceIDs env w maxTraces fuel).requests.length = fuel) ∧
    ((listTraceIDs (firstPage ["t1", "t2", "t3"]) () 2 1).result = some (.ok ["t1", "t2"]) ∧
      (listTraceIDs (firstPage ["t1", "t2", "t3"]) () 2 1).requests = [none]) := by
  have hpos : 0 < maxTraces.toNat := by omega
  have hrun : listTraceIDs env w maxTraces fuel =
      listTraceIDs.loop env maxTraces fuel w [] "" none [] [] := rfl
  have h := listTraceIDs_loop_of_pos env maxTraces hmax fuel w [] "" none [] [] rfl
    (by simpa using hpos) rfl
  rw [← hrun] at h
  refine ⟨?_, h.2.1, ?_, ⟨rfl, rfl⟩⟩
  · intro ids hids
    obtain ⟨h1, h2, h3, h4⟩ := h.1 ids hids
    have hlen : ((nonEmptyIDs (listTraceIDs env w maxTraces fuel).pages).take
        maxTraces.toNat).length = maxTraces.toNat := by
      rw [List.length_take]
      exact Nat.min_eq_left h2
    generalize (nonEmptyIDs (listTraceIDs env w maxTraces fuel).pages).take
      maxTraces.toNat = L at h1 hlen ⊢
    subst h1
    refine ⟨rfl, h2, h3, h4, nodup_uniq L, ?_, le_trans (length_uniq_le L) (le_of_eq hlen),
      fun hnd => by rw [uniq_eq_self_length L hnd, hlen]⟩
    cases L with
    | nil =>
      simp at hlen
      omega
    | cons a t => exact List.length_pos_of_mem ((mem_uniq _ a).2 (List.mem_cons_self a t))
  · intro hnone
    have h3 := h.2.2 hnone
    simpa using h3

/-- Witness of amended C4: `maxTraces = 2` and a first page yielding
`t1, t2, t3`. -/
theorem listTraceIDs_maxTraces_early_exit_witness :
    (2 : Int) > 0 ∧
    ["t1", "t2"] = uniq ((nonEmptyIDs
      (listTraceIDs (firstPage ["t1", "t2", "t3"]) () 2 1).pages).take (2 : Int).toNat) ∧
    (listTraceIDs (firstPage ["t1", "t2", "t3"]) () 2 1).requests.length =
      (listTraceIDs (firstPage ["t1", "t2", "t3"]) () 2 1).pages.length :=
  ⟨by decide,
    ((listTraceIDs_maxTraces_early_exit (firstPage ["t1", "t2", "t3"]) () 2 1
      (by decide)).1 ["t1", "t2"] rfl).1,
    ((listTraceIDs_maxTraces_early_exit (firstPage ["t1", "t2", "t3"]) () 2 1
      (by decide)).1 ["t1", "t2"] rfl).2.2.2.1⟩

/-! ## Properties of `aggregateClientPeersByTrace` -/

theorem take_min_length {α : Type} (l : List α) (a : Nat) :
    l.take (min a l.length) = l.take a := by
  rcases le_total a l.length with h | h
  · rw [Nat.min_eq_left h]
  · rw [Nat.min_eq_right h, List.take_of_length_le h, List.take_of_length_le (le_refl _)]

theorem length_chunkAt (l : List String) (i : Nat) :
    (chunkAt l i).length = min (80 * i + 80) l.length - 80 * i := by
  unfold chunkAt
  rw [List.length_drop, List.length_take]
  omega

theorem flatten_chunks (l : List String) (m : Nat) :
    ((List.range m).map (chunkAt l)).flatten = l.take (80 * m) := by
  induction m with
  | zero => simp
  | succ m ih =>
    rw [List.range_succ, List.map_append, List.flatten_append, ih]
    simp only [List.map_cons, List.map_nil, List.flatten_cons, List.flatten_nil,
      List.append_nil]
    unfold chunkAt
    rw [take_min_length]
    have h1 : l.take (80 * m) = (l.take (80 * m + 80)).take (80 * m) := by
      rw [List.take_take, Nat.min_eq_left (Nat.le_add_right _ _)]
    have h2 : 80 * (m + 1) = 80 * m + 80 := by omega
    rw [h1, List.take_append_drop, h2]

theorem aggregateClientPeersByTrace_loop_done {σ : Type} (env : AggregateSpansEnv σ)
    (traceIDs : List String) (i : Nat) (w : σ) (all : List DepRow)
    (queries : List (List String)) (h : ¬ i < traceIDs.length) :
    aggregateClientPeersByTrace.loop env traceIDs i w all queries =
      ⟨.ok (reduceRows all), queries, w⟩ := by
  rw [aggregateClientPeersByTrace.loop, if_neg h]

theorem aggregateClientPeersByTrace_loop_step {σ : Type} (env : AggregateSpansEnv σ)
    (traceIDs : List String) (i : Nat) (w : σ) (all : List DepRow)
    (queries : List (List String)) (h : i < traceIDs.length) :
    aggregateClientPeersByTrace.loop env traceIDs i w all queries =
      match env.cacheGet w ((traceIDs.take (min (i + 80) traceIDs.length)).drop i) with
      | (some raw, w1) =>
        aggregateClientPeersByTrace.loop env traceIDs (i + 80) w1
          (all ++ parseAggregatePairs raw)
          (queries ++ [(traceIDs.take (min (i + 80) traceIDs.length)).drop i])
      | (none, w1) =>
        match env.AggregateSpans w1
            ((traceIDs.take (min (i + 80) traceIDs.length)).drop i) with
        | (.error err, w2) =>
          ⟨.error ("AggregateSpans(client): " ++ err),
            queries ++ [(traceIDs.take (min (i + 80) traceIDs.length)).drop i], w2⟩
        | (.ok raw, w2) =>
          aggregateClientPeersByTrace.loop env traceIDs (i + 80)
            (env.cacheSet w2 ((traceIDs.take (min (i + 80) traceIDs.length)).drop i) raw)
            (all ++ parseAggregatePairs raw)
            (queries ++ [(traceIDs.take (min (i + 80) traceIDs.length)).drop i]) := by
  have hend : (if i + aggregateClientPeersByTrace.chunk > traceIDs.length then traceIDs.length
      else i + aggregateClientPeersByTrace.chunk) = min (i + 80) traceIDs.length := by
    unfold aggregateClientPeersByTrace.chunk
    rw [Nat.min_def]
    split_ifs <;> omega
  rw [aggregateClientPeersByTrace.loop, if_pos h]
  simp only [hend]
  rfl

/-- In an execution that ends without error, the chunk queries are the slices
of 80 trace IDs, in order. -/
theorem aggregateClientPeersByTrace_loop_queries {σ : Type} (env : AggregateSpansEnv σ)
    (traceIDs : List String) :
    ∀ (k i : Nat) (w : σ) (all : List DepRow) (queries : List (List String)),
      traceIDs.length - i ≤ k → i = 80 * queries.length →
      80 * queries.length < traceIDs.length + 80 →
      queries = (List.range queries.length).map (chunkAt traceIDs) →
      ∀ rows, (aggregateClientPeersByTrace.loop env traceIDs i w all queries).result =
          .ok rows →
        (aggregateClientPeersByTrace.loop env traceIDs i w all queries).queries =
          (List.range ((traceIDs.length + 79) / 80)).map (chunkAt traceIDs) := by
  have hdone : ∀ (i : Nat) (w : σ) (all : List DepRow) (queries : List (List String)),
      ¬ i < traceIDs.length → i = 80 * queries.length →
      80 * queries.length < traceIDs.length + 80 →
      queries = (List.range queries.length).map (chunkAt traceIDs) →
      (aggregateClientPeersByTrace.loop env traceIDs i w all queries).queries =
        (List.range ((traceIDs.length + 79) / 80)).map (chunkAt traceIDs) := by
    intro i w all queries hi hq hinv hqs
    rw [aggregateClientPeersByTrace_loop_done env traceIDs i w all queries hi]
    have hlen : (traceIDs.length + 79) / 80 = queries.length := by omega
    rw [hlen]
    exact hqs
  intro k
  induction k with
  | zero =>
    intro i w all queries hk hq hinv hqs rows _
    exact hdone i w all queries (by omega) hq hinv hqs
  | succ k ih =>
    intro i w all queries hk hq hinv hqs rows hok
    by_cases hi : i < traceIDs.length
    · have hids : (traceIDs.take (min (i + 80) traceIDs.length)).drop i =
          chunkAt traceIDs queries.length := by
        unfold chunkAt
        rw [hq]
      have hqs1 : queries ++ [chunkAt traceIDs queries.length] =
          (List.range (queries ++ [chunkAt traceIDs queries.length]).length).map
            (chunkAt traceIDs) := by
        rw [List.length_append, List.length_singleton, List.range_succ, List.map_append, ← hqs]
        rfl
      have hq1 : i + 80 = 80 * (queries ++ [chunkAt traceIDs queries.length]).length := by
        rw [List.length_append, List.length_singleton]
        omega
      have hinv1 : 80 * (queries ++ [chunkAt traceIDs queries.length]).length <
          traceIDs.length + 80 := by
        rw [List.length_append, List.length_singleton]
        omega
      rw [aggregateClientPeersByTrace_loop_step env traceIDs i w all queries hi, hids] at hok ⊢
      rcases hc : env.cacheGet w (chunkAt traceIDs queries.length) with ⟨cached, w1⟩
      rw [hc] at hok
      cases cached with
      | some raw =>
        exact ih (i + 80) w1 _ _ (by omega) hq1 hinv1 hqs1 rows hok
      | none =>
        dsimp only at hok ⊢
        rcases ha : env.AggregateSpans w1 (chunkAt traceIDs queries.length) with ⟨res, w2⟩
        rw [ha] at hok
        cases res with
        | error err => simp at hok
        | ok raw =>
          exact ih (i + 80) _ _ _ (by omega) hq1 hinv1 hqs1 rows hok
    · exact hdone i w all queries hi hq hinv hqs

/-- When no query of the backend fails, the loop ends without error. -/
theorem aggregateClientPeersByTrace_loop_ok {σ : Type} (env : AggregateSpansEnv σ)
    (hnf : ∀ w q, ∃ raw w2, env.AggregateSpans w q = (.ok raw, w2))
    (traceIDs : List String) :
    ∀ (k i : Nat) (w : σ) (all : List DepRow) (queries : List (List String)),
      traceIDs.length - i ≤ k →
      ∃ rows, (aggregateClientPeersByTrace.loop env traceIDs i w all queries).result =
        .ok rows := by
  intro k
  induction k with
  | zero =>
    intro i w all queries hk
    rw [aggregateClientPeersByTrace_loop_done env traceIDs i w all queries (by omega)]
    exact ⟨_, rfl⟩
  | succ k ih =>
    intro i w all queries hk
    by_cases hi : i < traceIDs.length
    · rw [aggregateClientPeersByTrace_loop_step env traceIDs i w all queries hi]
      rcases hc : env.cacheGet w ((traceIDs.take (min (i + 80) traceIDs.length)).drop i)
        with ⟨cached, w1⟩
      cases cached with
      | some raw => exact ih (i + 80) w1 _ _ (by omega)
      | none =>
        obtain ⟨raw, w2, ha⟩ := hnf w1 ((traceIDs.take (min (i + 80) traceIDs.length)).drop i)
        simp only [ha]
        exact ih (i + 80) _ _ _ (by omega)
    · rw [aggregateClientPeersByTrace_loop_done env traceIDs i w all queries hi]
      exact ⟨_, rfl⟩

theorem aggregateClientPeersByTrace_ok_of_no_failure {σ : Type} (env : AggregateSpansEnv σ)
    (hnf : ∀ w q, ∃ raw w2, env.AggregateSpans w q = (.ok raw, w2))
    (w : σ) (traceIDs : List String) :
    ∃ rows, (aggregateClientPeersByTrace env w traceIDs).result = .ok rows := by
  unfold aggregateClientPeersByTrace
  by_cases h0 : traceIDs.length = 0
  · rw [if_pos h0]
    exact ⟨_, rfl⟩
  · rw [if_neg h0]
    exact aggregateClientPeersByTrace_loop_ok env hnf traceIDs traceIDs.length 0 w [] []
      (by omega)

theorem emptyAggregates_no_failure :
    ∀ (w : Unit) (q : List String), ∃ raw w2,
      emptyAggregates.AggregateSpans w q = (.ok raw, w2) :=
  fun w _ => ⟨[], w, rfl⟩

theorem aggregateClientPeersByTrace_queries_of_ok {σ : Type} (env : AggregateSpansEnv σ)
    (w : σ) (traceIDs : List String) (rows : List DepRow)
    (hok : (aggregateClientPeersByTrace env w traceIDs).result = .ok rows) :
    (aggregateClientPeersByTrace env w traceIDs).queries =
      (List.range ((traceIDs.length + 79) / 80)).map (chunkAt traceIDs) := by
  unfold aggregateClientPeersByTrace at hok ⊢
  by_cases h0 : traceIDs.length = 0
  · simp [h0]
  · rw [if_neg h0] at hok ⊢
    exact aggregateClientPeersByTrace_loop_queries env traceIDs traceIDs.length 0 w [] []
      (by omega) (by simp) (by simp) (by simp) rows hok

/-- C7, as it fails: on 161 trace IDs and a backend whose queries fail,
`aggregateClientPeersByTrace` issues the first chunk query only and returns the
error. -/
theorem aggregateClientPeersByTrace_failed_query_aborts :
    (aggregateClientPeersByTrace failingAggregates () (List.replicate 161 "t")).queries =
      [List.replicate 80 "t"] ∧
    (aggregateClientPeersByTrace failingAggregates () (List.replicate 161 "t")).result =
      .error "AggregateSpans(client): 503" := by
  constructor
  · simp [aggregateClientPeersByTrace, aggregateClientPeersByTrace.loop,
      aggregateClientPeersByTrace.chunk, failingAggregates]
  · simp [aggregateClientPeersByTrace, aggregateClientPeersByTrace.loop,
      aggregateClientPeersByTrace.chunk, failingAggregates]

/-- C7, amended: in every execution of `aggregateClientPeersByTrace` on `n`
trace IDs that ends without error, exactly `ceil(n/80)` chunk queries are
issued; the `i`-th carries the IDs at positions `[80*i, min(80*i+80, n))`;
every chunk is non-empty and has at most 80 IDs, every chunk but the last has
exactly 80, and the chunks concatenated in order are the input list. On 161
trace IDs and a backend whose queries succeed, the chunks have sizes
80, 80, 1. -/
theorem aggregateClientPeersByTrace_chunk_queries {σ : Type} (env : AggregateSpansEnv σ)
    (w : σ) (traceIDs : List String) (rows : List DepRow)
    (hok : (aggregateClientPeersByTrace env w traceIDs).result = .ok rows) :
    (aggregateClientPeersByTrace env w traceIDs).queries.length =
      (traceIDs.length + 79) / 80 ∧
    (∀ i, i < (aggregateClientPeersByTrace env w traceIDs).queries.length →
      (aggregateClientPeersByTrace env w traceIDs).queries[i]? =
        some ((traceIDs.take (min (80 * i + 80) traceIDs.length)).drop (80 * i))) ∧
    (∀ q ∈ (aggregateClientPeersByTrace env w traceIDs).queries, q ≠ [] ∧ q.length ≤ 80) ∧
    (∀ i, i + 1 < (aggregateClientPeersByTrace env w traceIDs).queries.length →
      ∃ q, (aggregateClientPeersByTrace env w traceIDs).queries[i]? = some q ∧
        q.length = 80) ∧
    (aggregateClientPeersByTrace env w traceIDs).queries.flatten = traceIDs ∧
    ((aggregateClientPeersByTrace emptyAggregates () (List.replicate 161 "t")).queries.map
      List.length = [80, 80, 1]) := by
  have hqs := aggregateClientPeersByTrace_queries_of_ok env w traceIDs rows hok
  have hget : ∀ i, i < (traceIDs.length + 79) / 80 →
      ((List.range ((traceIDs.length + 79) / 80)).map (chunkAt traceIDs))[i]? =
        some (chunkAt traceIDs i) := by
    intro i hi
    rw [List.getElem?_map, List.getElem?_range hi]
    rfl
  rw [hqs]
  refine ⟨by simp, ?_, ?_, ?_, ?_, ?_⟩
  · intro i hi
    rw [List.length_map, List.length_range] at hi
    exact hget i hi
  · intro q hq
    obtain ⟨i, hi, rfl⟩ := List.mem_map.1 hq
    rw [List.mem_range] at hi
    have hlen := length_chunkAt traceIDs i
    constructor
    · intro hnil
      rw [hnil, List.length_nil] at hlen
      omega
    · omega
  · intro i hi
    rw [List.length_map, List.length_range] at hi
    refine ⟨chunkAt traceIDs i, hget i (by omega), ?_⟩
    rw [length_chunkAt]
    omega
  · rw [flatten_chunks]
    exact List.take_of_length_le (by omega)
  · obtain ⟨rows1, hok1⟩ := aggregateClientPeersByTrace_ok_of_no_failure emptyAggregates
      emptyAggregates_no_failure () (List.replicate 161 "t")
    rw [aggregateClientPeersByTrace_queries_of_ok emptyAggregates () _ rows1 hok1]
    simp [List.range_succ, length_chunkAt]

/-- Witness of amended C7: 161 trace IDs on a backend whose queries succeed. -/
theorem aggregateClientPeersByTrace_chunk_queries_witness :
    (∃ rows, (aggregateClientPeersByTrace emptyAggregates ()
      (List.replicate 161 "t")).result = .ok rows) ∧
    (aggregateClientPeersByTrace emptyAggregates () (List.replicate 161 "t")).queries.length =
      ((List.replicate 161 "t").length + 79) / 80 ∧
    (aggregateClientPeersByTrace emptyAggregates () (List.replicate 161 "t")).queries.flatten =
      List.replicate 161 "t" := by
  obtain ⟨rows, hok⟩ := aggregateClientPeersByTrace_ok_of_no_failure emptyAggregates
    emptyAggregates_no_failure () (List.replicate 161 "t")
  exact ⟨⟨rows, hok⟩,
    (aggregateClientPeersByTrace_chunk_queries emptyAggregates () (List.replicate 161 "t") rows
      hok).1,
    (aggregateClientPeersByTrace_chunk_queries emptyAggregates () (List.replicate 161 "t") rows
      hok).2.2.2.2.1⟩


end Puppy
